import Mathlib

/-!
Verification of the tbxtools SCons-emulation and dependency-resolution engine.

Each namespace below is a shallow embedding of one component of the
repository, translated from the Python source:

* `Intercept`   — `tbx2cmake/intercept.py` (`SystemEnvInterceptor`)
* `ScriptStack` — `tbx2cmake/sconsemu.py` (`SconsEmulator.parse_sconscript`)
* `EnvPure`     — `tbx2cmake/sconsemu.py` (`SConsEnvironment`, value level)
* `EnvHeap`     — `tbx2cmake/sconsemu.py` (`SConsEnvironment`, heap level,
                  for the aliasing behaviour of `Clone`)
* `DepGraph`    — `tbx2cmake/read_scons.py` (`_build_dependency_graph`)
* `ReadScons`   — `tbx2cmake/read_scons.py` (post-processing passes of
                  `read_distribution` and `_deduplicate_target_names`)
* `TbxModel`    — `tbxtools/model.py` (`Distribution.load_module`)
-/

namespace Intercept

/-! # Model of `SystemEnvInterceptor` (intercept.py)

Python attribute stores (`getattr`/`setattr` on modules) are modelled as a
function from (module name, attribute name) to an abstract value type `α`:
a "function object" held by a module attribute is just a value here.
`SystemEnvInterceptor.current` is modelled as a `Bool` (None / an instance).
-/

/-- The mutable process state touched by the interceptor: module attributes
and the class-level `SystemEnvInterceptor.current` singleton. -/
structure SysState (α : Type) where
  attrs : String → String → α
  currentActive : Bool

/-- An interceptor configuration: `details.to_rewrite` (a list of
(module, attribute names) pairs; the Python `set` of names is modelled as a
list in the set's fixed iteration order) and the `_fake_<name>` lookups. -/
structure Interceptor (α : Type) where
  toRewrite : List (String × List String)
  fakes : String → α

/-- Attribute-store update (`setattr(module, name, v)`). -/
def updAttr {α : Type} (f : String → String → α) (p : String × String) (v : α) :
    String → String → α :=
  fun m n => if m = p.1 ∧ n = p.2 then v else f m n

/-- Update of the saved-originals mapping (`self._orig[module][name] = v`). -/
def updOrig {α : Type} (f : String → String → Option α) (p : String × String) (v : α) :
    String → String → Option α :=
  fun m n => if m = p.1 ∧ n = p.2 then some v else f m n

/-- The sequence of (module, name) pairs in the order `__enter__` replaces
them: outer loop over `to_rewrite`, inner loop over the names. -/
def enterPairs (toR : List (String × List String)) : List (String × String) :=
  toR.flatMap fun mn => mn.2.map fun n => (mn.1, n)

/-- The sequence of (module, name) pairs in the order `__exit__` restores
them: outer loop over `reversed(self.details.to_rewrite)`, inner loop over
the names in their original (forward) order. -/
def exitPairs (toR : List (String × List String)) : List (String × String) :=
  enterPairs toR.reverse

/-- One step of the `__enter__` loop body:
`self._orig[module][name] = getattr(module, name)` then
`setattr(module, name, getattr(self.details, "_fake_" + name))`. -/
def enterStep {α : Type} (fakes : String → α)
    (acc : (String → String → α) × (String → String → Option α))
    (p : String × String) :
    (String → String → α) × (String → String → Option α) :=
  (updAttr acc.1 p (fakes p.2), updOrig acc.2 p (acc.1 p.1 p.2))

/-- `SystemEnvInterceptor.__enter__`: asserts no interceptor is active,
marks this one active, then saves and replaces every listed attribute. -/
def interceptorEnter {α : Type} (I : Interceptor α) (st : SysState α) :
    Except String (SysState α × (String → String → Option α)) :=
  if st.currentActive then .error "assert SystemEnvInterceptor.current is None"
  else
    let res := (enterPairs I.toRewrite).foldl (enterStep I.fakes)
      (st.attrs, fun _ _ => none)
    .ok ({ attrs := res.1, currentActive := true }, res.2)

/-- `SystemEnvInterceptor.__exit__`: restores the saved original of every
listed attribute (a keyed lookup in `self._orig`; a missing key would be a
Python `KeyError`), iterating `reversed(self.details.to_rewrite)`, then
resets `SystemEnvInterceptor.current` to `None`. -/
def interceptorExit {α : Type} (I : Interceptor α) (st : SysState α)
    (orig : String → String → Option α) : Except String (SysState α) := do
  let attrs2 ← (exitPairs I.toRewrite).foldlM
    (fun a p =>
      match orig p.1 p.2 with
      | some v => pure (updAttr a p v)
      | none => Except.error "KeyError")
    st.attrs
  pure { attrs := attrs2, currentActive := false }

/-- The `to_rewrite` configuration of `_fake_system_env` in sconsemu.py,
with the name sets written as lists (a fixed iteration order). -/
def actualToRewrite : List (String × List String) :=
  [("os", ["mkdir", "name", "path"]),
   ("posixpath", ["isdir", "isfile", "exists"]),
   ("sys", ["platform"])]

end Intercept

namespace ScriptStack

/-! # Model of `SconsEmulator.parse_sconscript` (sconsemu.py)

Only the `_current_sconscript` stack discipline is modelled.  A script's
executable content is abstracted to the parts relevant here: statements
that recurse into a sub-script (`SConscript(name)`, which calls
`sconscript_command` and hence `parse_sconscript` again), statements that
raise an exception, and inert statements.  Sub-script bodies are inlined in
the syntax tree (standing for the file the resolved path names), so the
recursion is structural.
-/

/-- A build-script statement, as far as the `_current_sconscript` pointer is
concerned. -/
inductive SStmt where
  | subscript (filename : String) (body : List SStmt)
  | raiseErr (msg : String)
  | nop

/-- The pointer state: `SconsEmulator._current_sconscript`
(`None` initially). -/
abbrev Ptr := Option String

mutual

/-- `SconsEmulator.parse_sconscript`: saves `prev_scons`, sets
`_current_sconscript` to this file, executes the body, and — only on the
normal-return path — sets `_current_sconscript` back to `prev_scons`.
An exception from `module.execute()` propagates with the pointer left as
the exception left it (there is no try/finally in the source).
The `Except` error carries the message and the pointer state at the moment
the exception propagates out of the call. -/
def parseSconscript (st : Ptr) (filename : String) (body : List SStmt) :
    Except (String × Ptr) Ptr :=
  let prev := st
  match execBody (some filename) body with
  | .ok _ => .ok prev
  | .error e => .error e

/-- `module.execute()` over the statements of a script. -/
def execBody (st : Ptr) : List SStmt → Except (String × Ptr) Ptr
  | [] => .ok st
  | s :: rest =>
    match execStmt st s with
    | .ok st2 => execBody st2 rest
    | .error e => .error e

/-- One statement: a `SConscript(...)` call recurses through
`sconscript_command` into `parse_sconscript`; a raising statement throws,
carrying the current pointer state. -/
def execStmt (st : Ptr) : SStmt → Except (String × Ptr) Ptr
  | .subscript fn body => parseSconscript st fn body
  | .raiseErr msg => .error (msg, st)
  | .nop => .ok st

end

end ScriptStack

namespace EnvPure

/-! # Value-level model of `SConsEnvironment` (sconsemu.py)

Settings values are Python strings, lists and dicts; `kwargs` is an
insertion-ordered dict, modelled as an association list where updating an
existing key replaces the value in place and a new key is appended. -/

/-- A Python value stored in an environment setting. -/
inductive SVal where
  | s (v : String)
  | l (vs : List SVal)
  | d (kvs : List (String × SVal))

/-- Does the dict have this key? -/
def hasKey (kw : List (String × SVal)) (k : String) : Bool :=
  kw.any fun e => e.1 = k

/-- Dict lookup. -/
def lookupKey (kw : List (String × SVal)) (k : String) : Option SVal :=
  (kw.find? fun e => e.1 = k).map Prod.snd

/-- Dict assignment: replace in place when the key exists, else append
(Python dict insertion-order semantics). -/
def setKey (kw : List (String × SVal)) (k : String) (v : SVal) :
    List (String × SVal) :=
  if hasKey kw k then kw.map fun e => if e.1 = k then (k, v) else e
  else kw ++ [(k, v)]

/-- `SConsEnvironment._DEFAULT_KWARGS`. -/
def defaultKwargs : List (String × SVal) :=
  [("OBJSUFFIX", .s ".o"),
   ("SHLINKFLAGS", .l []),
   ("BUILDERS", .d []),
   ("SHLINKCOM", .l [.s "SHLINKCOMDEFAULT"]),
   ("LINKCOM", .l [.s "LINKCOMDEFAULT"]),
   ("CCFLAGS", .l []),
   ("SHCCFLAGS", .l []),
   ("CXXFLAGS", .l []),
   ("SHCXXFLAGS", .l []),
   ("PROGPREFIX", .s ""),
   ("PROGSUFFIX", .s ""),
   ("LIBPREFIX", .s "lib"),
   ("SHLIBPREFIX", .s "lib"),
   ("LIBS", .l []),
   ("CPPPATH", .l [])]

/-- The instance state of a `SConsEnvironment`: its `kwargs` dict (the
`runner` back-reference and positional `args` are irrelevant here). -/
structure SEnv where
  kwargs : List (String × SVal)

/-- Iterating a value after the `isinstance(val, str)` wrap in
`Append`/`Prepend`: a string becomes a one-element list, a list yields its
elements, a dict yields its keys. -/
def iterElems : SVal → List SVal
  | .s v => [.s v]
  | .l vs => vs
  | .d kvs => kvs.map fun e => SVal.s e.1

/-- One key of `SConsEnvironment.Append`: seed a missing key with `[]`
(ignoring the class defaults), then `self.kwargs[key].extend(val)`.
`none` models the `AttributeError` when the stored value is not a list. -/
def envAppend1 (env : SEnv) (k : String) (val : SVal) : Option SEnv :=
  let kw := if hasKey env.kwargs k then env.kwargs else setKey env.kwargs k (.l [])
  match lookupKey kw k with
  | some (.l vs) => some { kwargs := setKey kw k (.l (vs ++ iterElems val)) }
  | _ => none

/-- One key of `SConsEnvironment.Prepend`: as `Append` but splices the new
elements at the front (`self.kwargs[key][:0] = val`). -/
def envPrepend1 (env : SEnv) (k : String) (val : SVal) : Option SEnv :=
  let kw := if hasKey env.kwargs k then env.kwargs else setKey env.kwargs k (.l [])
  match lookupKey kw k with
  | some (.l vs) => some { kwargs := setKey kw k (.l (iterElems val ++ vs)) }
  | _ => none

/-- `SConsEnvironment.Append(**kwargs)` over all keyword pairs. -/
def envAppend (env : SEnv) (kvs : List (String × SVal)) : Option SEnv :=
  kvs.foldlM (fun e p => envAppend1 e p.1 p.2) env

/-- `SConsEnvironment.Prepend(**kwargs)` over all keyword pairs. -/
def envPrepend (env : SEnv) (kvs : List (String × SVal)) : Option SEnv :=
  kvs.foldlM (fun e p => envPrepend1 e p.1 p.2) env

/-- `SConsEnvironment.Replace(**kwargs)`: `self.kwargs.update(kwargs)`. -/
def envReplace (env : SEnv) (kvs : List (String × SVal)) : SEnv :=
  { kwargs := kvs.foldl (fun kw p => setKey kw p.1 p.2) env.kwargs }

/-- `SConsEnvironment.__setitem__`. -/
def envSet (env : SEnv) (k : String) (v : SVal) : SEnv :=
  { kwargs := setKey env.kwargs k v }

/-- `SConsEnvironment.__getitem__`: a key missing from `kwargs` falls back
to the class-level `_DEFAULT_KWARGS`; `none` is a `KeyError`. -/
def envGet (env : SEnv) (k : String) : Option SVal :=
  if hasKey env.kwargs k then lookupKey env.kwargs k
  else lookupKey defaultKwargs k

/-- `SConsEnvironment.Clone` at the value level: the deep copy performed by
`__init__` is the identity on immutable snapshots, after which the clone
call's own keyword arguments overwrite (`clone.kwargs.update(kwargs)`). -/
def envClone (env : SEnv) (kvs : List (String × SVal)) : SEnv :=
  envReplace env kvs

/-- `Target.Type` (sconsemu.py). -/
inductive TType where
  | program
  | shared
  | static
  | modType
  | cudalib
  | object
deriving DecidableEq

/-- A builder's `target` argument: a string or a list of strings
("mmtbx has added list targets"). -/
inductive TargetArg where
  | one (s : String)
  | many (ss : List String)

/-- The distinct fatal outcomes of `_create_target`. -/
inductive CTErr where
  | listTargetAssert
  | badLibEntry
  | unknownLinkFlags (flags : List String)
  | missingKey (k : String)
  | notAList (k : String)
  | appendError

/-- The information `_create_target` extracts into a `Target`. -/
structure CTarget where
  ttype : TType
  name : String
  filename : String
  outputPath : String
  sources : List String
  extraLibs : List String
  prefx : String

/-- Split a POSIX path string into its `PurePosixPath.parts`. -/
def pathParts (p : String) : List String :=
  (p.splitOn "/").filter fun s => s ≠ ""

/-- Join parts back into a path string. -/
def joinParts (ps : List String) : String :=
  String.intercalate "/" ps

/-- Flatten the `LIBS` list as `_create_target` does: a string is added, a
list is unioned element-wise, anything else is `assert False`.  (Non-string
elements inside a nested list are rejected here as well; in the corpus
`LIBS` entries are library-name strings.) -/
def flattenLibs : List SVal → Except CTErr (List String)
  | [] => .ok []
  | .s v :: rest => do
    let r ← flattenLibs rest
    .ok (v :: r)
  | .l vs :: rest => do
    let inner ← flattenLibs vs
    let r ← flattenLibs rest
    .ok (inner ++ r)
  | .d _ :: rest => do
    let _ ← flattenLibs rest
    .error CTErr.badLibEntry

/-- Set-subtraction and deduplication of the flattened `LIBS`
(`libs` is a Python `set`): drop the universally-implied libraries. -/
def reduceLibs (libs : List String) : List String :=
  (libs.eraseDups).filter fun v =>
    v ≠ "boost_thread" ∧ v ≠ "boost_system" ∧ v ≠ "m"

/-- The fixed allow-list of known-benign link flags. -/
def knownIgnoreFlags : List String := ["-fopenmp", "-shared", "-rdynamic"]

/-- Strip every occurrence of each known-benign flag
(`while flag in linkflags: linkflags.remove(flag)`), leaving every other
element in place. -/
def stripLinkFlags (flags : List SVal) : List SVal :=
  flags.filter fun v =>
    match v with
    | .s f => ¬ f ∈ knownIgnoreFlags
    | _ => true

/-- Render the surviving link flags for the assertion message. -/
def flagStrings (flags : List SVal) : List String :=
  flags.map fun v =>
    match v with
    | .s f => f
    | .l _ => "<list>"
    | .d _ => "<dict>"

/-- `SConsEnvironment._create_target` (sconsemu.py, lines 251–325), at the
value level.  `callKw` is the builder call's `**kwargs` (appended to the
cloned environment).  The module registration and `runner` bookkeeping at
the end touch no further environment state, so the extracted target record
is returned directly. -/
def createTarget (env : SEnv) (ttype : TType) (targetArg : TargetArg)
    (source : List String) (callKw : List (String × SVal)) :
    Except CTErr CTarget := do
  -- assert len(target) == 1 for list-valued targets
  let targetStr ←
    match targetArg with
    | .one s => Except.ok s
    | .many [s] => Except.ok s
    | .many _ => Except.error CTErr.listTargetAssert
  -- "#lib..." first component is rewritten to "#/lib/..."
  let parts0 := pathParts targetStr
  let parts :=
    match parts0 with
    | p :: rest =>
      if p.startsWith "#lib" then "#" :: "lib" :: p.drop 4 :: rest
      else parts0
    | [] => parts0
  let name := (parts.getLastD "")
  let outputPath := joinParts parts.dropLast
  -- target.env = self.Clone(); target.env.Append(**kwargs)
  let env1 := envClone env []
  let env2 ←
    match envAppend env1 callKw with
    | some e => Except.ok e
    | none => Except.error CTErr.appendError
  -- flatten and reduce the LIBS list
  let libsVal ←
    match envGet env2 "LIBS" with
    | some v => Except.ok v
    | none => Except.error (CTErr.missingKey "LIBS")
  let libEntries ←
    match libsVal with
    | .l vs => Except.ok vs
    | _ => Except.error (CTErr.notAList "LIBS")
  let flat ← flattenLibs libEntries
  let extraLibs := reduceLibs flat
  -- linkflags = list(target.env["SHLINKFLAGS"]); strip benign; assert empty
  let lfVal ←
    match envGet env2 "SHLINKFLAGS" with
    | some v => Except.ok v
    | none => Except.error (CTErr.missingKey "SHLINKFLAGS")
  let linkflags ←
    match lfVal with
    | .l vs => Except.ok vs
    | _ => Except.error (CTErr.notAList "SHLINKFLAGS")
  let remaining := stripLinkFlags linkflags
  if remaining.isEmpty = false then
    Except.error (CTErr.unknownLinkFlags (flagStrings remaining))
  else
  -- prefix assignment by target type
  let prefx ←
    match ttype with
    | TType.shared =>
      match envGet env2 "SHLIBPREFIX" with
      | some (.s v) => Except.ok v
      | some _ => Except.error (CTErr.notAList "SHLIBPREFIX")
      | none => Except.error (CTErr.missingKey "SHLIBPREFIX")
    | TType.static =>
      match envGet env2 "LIBPREFIX" with
      | some (.s v) => Except.ok v
      | some _ => Except.error (CTErr.notAList "LIBPREFIX")
      | none => Except.error (CTErr.missingKey "LIBPREFIX")
    | _ => Except.ok ""
  Except.ok
    { ttype := ttype
      name := name
      filename := name
      outputPath := outputPath
      sources := source
      extraLibs := extraLibs
      prefx := prefx }

end EnvPure

namespace DepGraph

/-! # Model of `_build_dependency_graph` (read_scons.py)

`networkx.DiGraph` is modelled as explicit node and edge lists without
duplicates (`add_edge` also inserts the endpoints and ignores an existing
edge).  The external library calls `is_directed_acyclic_graph` /
`find_cycle` are modelled by an executable bounded depth-first search whose
agreement with genuine acyclicity is proved below. -/

/-- A `LibTBXModule` as far as graph building is concerned: its name, its
merged `required` set (as a list in set-iteration order) and its raw
`_config` dict (key, entry-list) items. -/
structure GModule where
  name : String
  required : List String
  config : List (String × List String)

/-- A directed graph, nodes and edges in insertion order. -/
structure DGraph where
  nodes : List String
  edges : List (String × String)
deriving DecidableEq

/-- `G.add_node`. -/
def addNode (G : DGraph) (n : String) : DGraph :=
  if n ∈ G.nodes then G else { G with nodes := G.nodes ++ [n] }

/-- `G.add_edge`: inserts both endpoints and the edge (if new). -/
def addEdge (G : DGraph) (a b : String) : DGraph :=
  let G1 := addNode (addNode G a) b
  if (a, b) ∈ G1.edges then G1 else { G1 with edges := G1.edges ++ [(a, b)] }

/-- Declared-requirement and forced-libtbx edges for one module. -/
def addModuleEdges (G : DGraph) (m : GModule) : DGraph :=
  let G1 := m.required.foldl (fun g req => addEdge g m.name req) G
  if m.name = "libtbx" then G1 else addEdge G1 m.name "libtbx"

/-- One step of the adaptbx pass: add (src, dst_adaptbx) when such a node
exists and the edge is missing. -/
def adaptbxStep (g : DGraph) (e : String × String) : DGraph :=
  let ad := e.2 ++ "_adaptbx"
  if ad ∈ g.nodes ∧ ¬ (e.1, ad) ∈ g.edges then addEdge g e.1 ad else g

/-- The adaptbx co-dependency pass: for every edge (src, dst) of the graph
snapshot, add (src, dst_adaptbx) when such a node exists and the edge is
missing (checked against the current graph, matching the source's
`list(G.edges)` snapshot). -/
def addAdaptbxEdges (G : DGraph) : DGraph :=
  G.edges.foldl adaptbxStep G

/-- The dependency graph before cycle breaking: nodes for every module,
declared-requirement edges, forced libtbx edges, the hardcoded corrective
edge scitbx → omptbx, and the adaptbx pass. -/
def buildGraphRaw (modules : List GModule) : DGraph :=
  let G0 := modules.foldl (fun g m => addNode g m.name) { nodes := [], edges := [] }
  let G1 := modules.foldl addModuleEdges G0
  let G2 := addEdge G1 "scitbx" "omptbx"
  addAdaptbxEdges G2

/-- Out-edges of a node. -/
def succEdges (es : List (String × String)) (a : String) :
    List (String × String) :=
  es.filter fun e => e.1 = a

/-- Bounded DFS for an edge path from `a` to `tgt` (the executable core of
the modelled `networkx` cycle finder). -/
def findPath (es : List (String × String)) :
    Nat → String → String → Option (List (String × String))
  | 0, _, _ => none
  | fuel + 1, a, tgt =>
    if (a, tgt) ∈ es then some [(a, tgt)]
    else
      (succEdges es a).findSome? fun e =>
        (findPath es fuel e.2 tgt).map fun p => e :: p

/-- `nx.cycles.find_cycle`: some closed edge path, if one exists. -/
def findAnyCycle (G : DGraph) : Option (List (String × String)) :=
  G.nodes.findSome? fun n => findPath G.edges (G.edges.length + 1) n n

/-- `nx.is_directed_acyclic_graph`. -/
def isAcyclicB (G : DGraph) : Bool :=
  (findAnyCycle G).isNone

/-- `cycle_breaking_order` (least to most important). -/
def cycleBreakingOrder : List String :=
  ["modules_required_for_build", "modules_required_for_use", "optional_modules"]

/-- The distinct fatal outcomes of the cycle-breaking loop. -/
inductive BCErr where
  | moduleKeyError (name : String)
  | edgePriorityAssert (startN endN : String)
  | emptyCycleAssert
deriving DecidableEq

/-- The declared priority of the edge (startN, endN): scan the start
module's `_config` items, the last matching cycle-breaking key wins.  An
absent module is the source's `[...][0]` IndexError; no matching entry is
the `edge_priority is not None` assertion. -/
def edgePriority (modules : List GModule) (startN endN : String) :
    Except BCErr Nat :=
  match modules.find? fun m => m.name = startN with
  | none => .error (BCErr.moduleKeyError startN)
  | some m =>
    let pr := m.config.foldl
      (fun acc kv =>
        if endN ∈ kv.2 ∧ kv.1 ∈ cycleBreakingOrder then
          some (cycleBreakingOrder.indexOf kv.1)
        else acc)
      none
    match pr with
    | none => .error (BCErr.edgePriorityAssert startN endN)
    | some p => .ok p

/-- One step of the lowest-priority-edge scan: look up this edge's
priority and keep it when it is strictly more breakable than the best so
far (strict `>` keeps the first among equals). -/
def pickStep (modules : List GModule)
    (acc : Option (Nat × (String × String))) (e : String × String) :
    Except BCErr (Option (Nat × (String × String))) := do
  let p ← edgePriority modules e.1 e.2
  match acc with
  | none => pure (some (p, e))
  | some lp => if p > lp.1 then pure (some (p, e)) else pure (some lp)

/-- Scan the cycle, keeping the first edge of numerically largest priority
index (the most breakable declared kind). -/
def pickEdge (modules : List GModule) (cycle : List (String × String)) :
    Except BCErr (String × String) := do
  let best ← cycle.foldlM (pickStep modules) none
  match best with
  | none => .error BCErr.emptyCycleAssert
  | some b => .ok b.2

/-- The cycle-breaking `while` loop, with fuel: `none` is fuel exhaustion
(a model artifact only — the loop removes one edge per iteration, so
`|edges| + 1` fuel always suffices, proved below). -/
def breakCyclesFuel (modules : List GModule) :
    Nat → DGraph → Option (Except BCErr DGraph)
  | 0, _ => none
  | fuel + 1, G =>
    match findAnyCycle G with
    | none => some (.ok G)
    | some cycle =>
      match pickEdge modules cycle with
      | .error e => some (.error e)
      | .ok e => breakCyclesFuel modules fuel { G with edges := G.edges.erase e }

/-- `_build_dependency_graph`: raw graph construction followed by the
cycle-breaking loop. -/
def buildDependencyGraph (modules : List GModule) :
    Option (Except BCErr DGraph) :=
  let raw := buildGraphRaw modules
  breakCyclesFuel modules (raw.edges.length + 1) raw

/-- A genuine directed edge path (a sequence of ≥ 1 linked edges of `es`)
from `a` to `b`. -/
inductive EdgePath (es : List (String × String)) :
    String → String → List (String × String) → Prop where
  | single {a b : String} (h : (a, b) ∈ es) : EdgePath es a b [(a, b)]
  | cons {a b c : String} {p : List (String × String)} (h : (a, b) ∈ es)
      (tail : EdgePath es b c p) : EdgePath es a c ((a, b) :: p)

/-- A genuine cycle: a closed nonempty edge path. -/
def HasCycle (es : List (String × String)) : Prop :=
  ∃ n p, EdgePath es n n p

/-- Semantic acyclicity of a graph. -/
def Acyclic (G : DGraph) : Prop :=
  ¬ HasCycle G.edges

/-- Edge endpoints are graph nodes (an `add_edge` invariant of networkx
graphs, preserved by edge removal). -/
def EdgesWF (G : DGraph) : Prop :=
  ∀ e ∈ G.edges, e.1 ∈ G.nodes ∧ e.2 ∈ G.nodes

end DepGraph

namespace ReadScons

/-! # Model of `_deduplicate_target_names` and the `read_distribution`
post-processing passes (read_scons.py)

Targets are value records living inside their owning module's `targets`
list (the `TargetCollection` iterates exactly those lists, and removal
always removes from the owning module's list).  Python object identity is
flattened to structural values; where the source removes one specific
object, the model removes the first structurally equal occurrence. -/

/-- A target record with the attributes the post-processing reads. -/
structure PTarget where
  ttype : EnvPure.TType
  name : String
  filename : String
  prefx : String
  extraLibs : List String
  originPath : String
deriving DecidableEq

/-- A module holding its targets.  `fsLooksLike` abstracts the filesystem
part of `looks_like_module` (SConscript / libtbx_config / libtbx_refresh /
command_line directory). -/
structure PModule where
  name : String
  path : String
  fsLooksLike : Bool
  targets : List PTarget
deriving DecidableEq

/-- The distribution: its name-keyed module mapping, in insertion order. -/
structure PDist where
  modules : List PModule
deriving DecidableEq

/-- `LibTBXModule.looks_like_module`: any filesystem marker, or a nonempty
target list. -/
def looksLike (m : PModule) : Bool :=
  m.fsLooksLike || ¬ m.targets.isEmpty

/-- The `TargetCollection` view: all targets of all modules. -/
def allTargets (d : PDist) : List PTarget :=
  d.modules.flatMap fun m => m.targets

/-- Targets paired with their owning module's name, in collection order. -/
def allTargetsWithMod (d : PDist) : List (String × PTarget) :=
  d.modules.flatMap fun m => m.targets.map fun t => (m.name, t)

/-- `Target.output_filename` = `prefix + filename`. -/
def outputFilename (t : PTarget) : String :=
  t.prefx ++ t.filename

/-- Remove the first occurrence of `t` from the first module containing it
(the source removes one specific object from its owning module's list). -/
def removeTargetOnce (ms : List PModule) (t : PTarget) : List PModule :=
  match ms with
  | [] => []
  | m :: rest =>
    if t ∈ m.targets then { m with targets := m.targets.erase t } :: rest
    else m :: removeTargetOnce rest t

/-- The fixed set of third-party boost target names removed first. -/
def boostTargetNames : List String :=
  ["boost_thread", "boost_system", "boost_python", "boost_chrono",
   "boost_numpy", "boost_filesystem", "libboost_filesystem"]

/-- Pass 1: remove every target whose name is a boost target name. -/
def removeBoostTargets (d : PDist) : PDist :=
  { modules := d.modules.map fun m =>
      { m with targets := m.targets.filter fun t => ¬ t.name ∈ boostTargetNames } }

/-- Pass 2: drop the fixed set of unsupported modules. -/
def removeUnwantedModules (d : PDist) : PDist :=
  { modules := d.modules.filter fun m =>
      ¬ m.name ∈ ["clipper", "clipper_adaptbx", "fftw3tbx"] }

/-- `_is_cuda_target`. -/
def isCudaTarget (t : PTarget) : Bool :=
  t.ttype = EnvPure.TType.cudalib || t.extraLibs.contains "cufft"

/-- Remove one CUDA target and strip its link name from every remaining
target's `extra_libs`. -/
def removeCudaOne (d : PDist) (t : PTarget) : PDist :=
  let ms := removeTargetOnce d.modules t
  let linkName0 := outputFilename t
  let linkName := if linkName0.startsWith "lib" then linkName0.drop 3 else linkName0
  { modules := ms.map fun m =>
      { m with targets := m.targets.map fun x =>
          if linkName ∈ x.extraLibs then
            { x with extraLibs := x.extraLibs.filter fun v => v ≠ linkName }
          else x } }

/-- Pass 3: snapshot the CUDA targets, then remove each with its cascade. -/
def removeCudaTargets (d : PDist) : PDist :=
  ((allTargets d).filter isCudaTarget).foldl removeCudaOne d

/-! ## `_deduplicate_target_names` (read_scons.py, lines 321–337)

The standalone algorithm is modelled over (name, owning-module-name)
records; the distribution-level pass below applies the same steps to the
targets inside the modules. -/

/-- What deduplication sees of a target: its name and its owning module. -/
structure TRec where
  name : String
  modName : String
deriving DecidableEq

/-- One `duplicate` iteration: the targets currently bearing the name must
all come from distinct modules (else the disambiguation assert fires), and
each is renamed to `name_module`. -/
def renameDup (ts : List TRec) (d : String) : Except String (List TRec) :=
  let duped := ts.filter fun t => t.name = d
  if (duped.map TRec.modName).Nodup then
    .ok (ts.map fun t =>
      if t.name = d then { t with name := t.name ++ "_" ++ t.modName } else t)
  else .error "Module name not enough to disambiguate duplicate targets"

/-- The names Counter records with count > 1, in first-appearance order. -/
def dupNames (names : List String) : List String :=
  names.eraseDups.filter fun n => names.count n > 1

/-- `_deduplicate_target_names`: rename the bearers of every duplicated
name, then assert all names are unique. -/
def dedupTargetNames (ts : List TRec) : Except String (List TRec) := do
  let ts2 ← (dupNames (ts.map TRec.name)).foldlM renameDup ts
  if (ts2.map TRec.name).Nodup then pure ts2
  else .error "Deduplication failed"

/-- The distribution-level version of one `duplicate` iteration. -/
def distRenameDup (d : PDist) (dn : String) : Except String PDist :=
  let duped := (allTargetsWithMod d).filter fun p => p.2.name = dn
  if (duped.map Prod.fst).Nodup then
    .ok { modules := d.modules.map fun m =>
      { m with targets := m.targets.map fun t =>
          if t.name = dn then { t with name := t.name ++ "_" ++ m.name } else t } }
  else .error "Module name not enough to disambiguate duplicate targets"

/-- Pass 4: `_deduplicate_target_names(tbx.targets)` over the collection. -/
def distDedup (d : PDist) : Except String PDist := do
  let d2 ← (dupNames ((allTargets d).map PTarget.name)).foldlM distRenameDup d
  if ((allTargets d2).map PTarget.name).Nodup then pure d2
  else .error "Deduplication failed"

/-- Pass 5: reclassify python-extension targets (links boost_python, has
no prefix, is not an OBJECT) as MODULE. -/
def reclassifyModules (d : PDist) : PDist :=
  { modules := d.modules.map fun m =>
      { m with targets := m.targets.map fun t =>
          if t.extraLibs.contains "boost_python" ∧ t.prefx = ""
              ∧ ¬ t.ttype = EnvPure.TType.object then
            { t with ttype := EnvPure.TType.modType }
          else t } }

/-- The per-target prefix-by-type property the source asserts. -/
def prefixTypeOK (t : PTarget) : Bool :=
  (decide (t.ttype = EnvPure.TType.shared) → t.prefx = "lib")
    && (decide (t.ttype = EnvPure.TType.static) → t.prefx = "lib")
    && (decide (t.ttype = EnvPure.TType.modType) → t.prefx = "")

/-- Pass 6: the global assertions over the target set.  (The
`x.module`-is-set assertion is vacuous in this model: every target in the
collection lives inside its owning module's list.) -/
def checkAsserts (d : PDist) : Except String PDist :=
  if (allTargets d).all prefixTypeOK then .ok d
  else .error "prefix assertion failed"

/-- Look up a module by name (`tbx.modules[name]`). -/
def findModule (d : PDist) (n : String) : Option PModule :=
  d.modules.find? fun m => m.name = n

/-- Move one module-named target: remove it from its owning module, append
it to the module bearing its name, and set its origin path to that
module's path. -/
def moveOne (d : PDist) (t : PTarget) : PDist :=
  match findModule d t.name with
  | none => d
  | some dest =>
    let ms := removeTargetOnce d.modules t
    { modules := ms.map fun m =>
        if m.name = t.name then
          { m with targets := m.targets ++ [{ t with originPath := dest.path }] }
        else m }

/-- Pass 7: snapshot the targets named after a module but declared at a
different origin path, then move each into its namesake module. -/
def moveModuleNamedTargets (d : PDist) : PDist :=
  let violating := (allTargets d).filter fun t =>
    match findModule d t.name with
    | some m => ¬ t.originPath = m.path
    | none => false
  violating.foldl moveOne d

/-- Pass 8: drop every module that still does not look like a module. -/
def dropNonModules (d : PDist) : PDist :=
  { modules := d.modules.filter looksLike }

/-- The closed set of expected external link libraries. -/
def expectedExternalLibs : List String :=
  ["tiff", "boost_python", "GL", "GLU", "hdf5", "boost_numpy", "png",
   "hdf5_hl", "gtest", "gtest_main", "boost_filesystem", "dl"]

/-- Pass 9: every external (non-target) linked library must be expected. -/
def checkExternalLibs (d : PDist) : Except String PDist :=
  let allLibs := ((allTargets d).flatMap PTarget.extraLibs).eraseDups
  let targetNames := (allTargets d).map PTarget.name
  let external := allLibs.filter fun v => ¬ v ∈ targetNames
  let unexpected := external.filter fun v => ¬ v ∈ expectedExternalLibs
  if unexpected.isEmpty then .ok d
  else .error "Unexpected extra external libs"

/-- The post-processing tail of `read_distribution` (read_scons.py, lines
396–524), applied to the distribution produced by parsing. -/
def readDistributionPost (d : PDist) : Except String PDist := do
  let d1 := removeBoostTargets d
  let d2 := removeUnwantedModules d1
  let d3 := removeCudaTargets d2
  let d4 ← distDedup d3
  let d5 := reclassifyModules d4
  let d6 ← checkAsserts d5
  let d7 := moveModuleNamedTargets d6
  let d8 := dropNonModules d7
  checkExternalLibs d8

end ReadScons

namespace TbxModel

/-! # Model of `Distribution.load_module` (tbxtools/model.py)

The filesystem is abstracted to a name → (path, parsed libtbx_config)
lookup (`_find_module_dir` composed with `Module.__init__`'s config read).
The distribution's `_modules` dict is an insertion-ordered association
list.  Python's unbounded recursion is given a depth fuel: every recursive
`load_module` call happens after the caller inserted its own name into
`_modules`, so recursion depth is bounded and sufficient fuel exists.
Besides the state, each call returns a ghost log of the module names whose
load ran to completion (the `return module` at the end of `load_module`);
the log is write-only instrumentation and influences nothing. -/

/-- What locating a module on disk yields: its path and the three
dependency lists of its `libtbx_config` (sets, in iteration order). -/
structure DiskModule where
  path : String
  requiredBuild : List String
  requiredUse : List String
  optionalMods : List String

/-- The searchable distribution tree, keyed by module name. -/
abbrev Fs := List (String × DiskModule)

/-- A loaded `Module` object: its config (after the ignore-missing
rewrite) and its `dependencies` / `dependents` edge sets (by name). -/
structure ModRec where
  name : String
  path : String
  requiredBuild : List String
  requiredUse : List String
  optionalMods : List String
  deps : List String
  depnts : List String
deriving DecidableEq

/-- `Distribution` state: `_ignore_missing` and `_modules`. -/
structure MState where
  ignoreMissing : List String
  modules : List (String × ModRec)
deriving DecidableEq

/-- `name in self._modules`. -/
def hasMod (st : MState) (n : String) : Bool :=
  st.modules.any fun e => e.1 = n

/-- `self._modules[name]` lookup. -/
def getMod (st : MState) (n : String) : Option ModRec :=
  (st.modules.find? fun e => e.1 = n).map Prod.snd

/-- Update the record stored under a key, if present. -/
def setMod (st : MState) (n : String) (f : ModRec → ModRec) : MState :=
  { st with modules := st.modules.map fun e => if e.1 = n then (e.1, f e.2) else e }

/-- `del self._modules[name]`. -/
def eraseMod (st : MState) (n : String) : MState :=
  { st with modules := st.modules.filter fun e => ¬ e.1 = n }

/-- Python `set.add` on a list-modelled set. -/
def insertIfAbsent (l : List String) (x : String) : List String :=
  if x ∈ l then l else l ++ [x]

/-- Record the dependency edge a → b:
`a.dependencies.add(b)` and `b.dependents.add(a)`. -/
def addDepEdge (st : MState) (a b : String) : MState :=
  setMod (setMod st a fun m => { m with deps := insertIfAbsent m.deps b })
    b fun m => { m with depnts := insertIfAbsent m.depnts a }

/-- The value `load_module` returns: a `Module` or `None`. -/
inductive LOut where
  | found (name : String)
  | missing
deriving DecidableEq

/-- Exceptional outcomes: `DependencyError` (dep, requested-by), a Python
`KeyError`, or fuel exhaustion (a model artifact only). -/
inductive LErr where
  | depErr (dep reqBy : String)
  | keyErr (k : String)
  | fuelOut
deriving DecidableEq

/-- `fs` lookup (`_find_module_dir` + config read). -/
def lookupFs (fs : Fs) (n : String) : Option DiskModule :=
  (fs.find? fun e => e.1 = n).map Prod.snd

/-- Build the fresh `Module` record, applying the `_ignore_missing`
rewrite: hard requirements on potentially-missing modules are subtracted
and unioned into `optional_modules`. -/
def mkModRec (name : String) (dm : DiskModule) (ignore : List String) : ModRec :=
  let rb := dm.requiredBuild.filter fun x => ¬ x ∈ ignore
  let ru := dm.requiredUse.filter fun x => ¬ x ∈ ignore
  let ovB := dm.requiredBuild.filter fun x => x ∈ ignore
  let ovU := dm.requiredUse.filter fun x => x ∈ ignore
  { name := name
    path := dm.path
    requiredBuild := rb
    requiredUse := ru
    optionalMods := (ovB ++ ovU).foldl insertIfAbsent dm.optionalMods
    deps := []
    depnts := [] }

/-- `abs_deps`: the set union of build and use requirements. -/
def absDeps (m : ModRec) : List String :=
  (m.requiredBuild ++ m.requiredUse).foldl insertIfAbsent []

/-- The absolute-requirement loop of `_load_dependencies_for`,
parameterized by the module loader (`load_module` at the remaining
recursion depth): a dependency that cannot be located raises
`DependencyError`; a located one is recorded in the graph. -/
def loadAbsF (lm : MState → String → (Except LErr LOut) × MState × List String)
    (reqBy : String) : MState → List String →
    (Except LErr Unit) × MState × List String
  | st, [] => (.ok (), st, [])
  | st, dep :: rest =>
    match lm st dep with
    | (.ok (LOut.found _), st2, log) =>
      match loadAbsF lm reqBy (addDepEdge st2 reqBy dep) rest with
      | (r, st3, log2) => (r, st3, log ++ log2)
    | (.ok LOut.missing, st2, log) => (.error (LErr.depErr dep reqBy), st2, log)
    | (.error e, st2, log) => (.error e, st2, log)

/-- The optional loop: a missing module or a `DependencyError` is
swallowed and the loop continues (state changes made by the failed load
are kept). -/
def loadOptF (lm : MState → String → (Except LErr LOut) × MState × List String)
    (reqBy : String) : MState → List String →
    (Except LErr Unit) × MState × List String
  | st, [] => (.ok (), st, [])
  | st, dep :: rest =>
    match lm st dep with
    | (.ok (LOut.found _), st2, log) =>
      match loadOptF lm reqBy (addDepEdge st2 reqBy dep) rest with
      | (r, st3, log2) => (r, st3, log ++ log2)
    | (.ok LOut.missing, st2, log) =>
      match loadOptF lm reqBy st2 rest with
      | (r, st3, log2) => (r, st3, log ++ log2)
    | (.error (LErr.depErr _ _), st2, log) =>
      match loadOptF lm reqBy st2 rest with
      | (r, st3, log2) => (r, st3, log ++ log2)
    | (.error e, st2, log) => (.error e, st2, log)

/-- `Distribution._load_dependencies_for`: the forced libtbx edge (a
`KeyError` when libtbx is absent), the absolute-requirement loop, then the
optional loop. -/
def loadDepsForF
    (lm : MState → String → (Except LErr LOut) × MState × List String)
    (st : MState) (m : ModRec) : (Except LErr Unit) × MState × List String :=
  let libtbxStep : (Except LErr Unit) × MState :=
    if m.name = "libtbx" then (.ok (), st)
    else if hasMod st "libtbx" then (.ok (), addDepEdge st m.name "libtbx")
    else (.error (LErr.keyErr "libtbx"), st)
  match libtbxStep with
  | (.error e, st2) => (.error e, st2, [])
  | (.ok _, st2) =>
    match loadAbsF lm m.name st2 (absDeps m) with
    | (.error e, st3, log) => (.error e, st3, log)
    | (.ok _, st3, log) =>
      match loadOptF lm m.name st3 m.optionalMods with
      | (r, st4, log2) => (r, st4, log ++ log2)

/-- `Distribution.load_module`: cached hit, failed location, or insert →
load dependencies → (on `DependencyError`) roll the insertion back and
re-raise.  The fuel is a recursion-depth budget, decremented once per
nested `load_module` frame. -/
def loadModule (fs : Fs) : Nat → MState → String →
    (Except LErr LOut) × MState × List String
  | 0, st, _ => (.error LErr.fuelOut, st, [])
  | fuel2 + 1, st, name =>
    if hasMod st name then (.ok (LOut.found name), st, [])
    else
      match lookupFs fs name with
      | none => (.ok LOut.missing, st, [])
      | some dm =>
        let rec0 := mkModRec name dm st.ignoreMissing
        let st1 : MState := { st with modules := st.modules ++ [(name, rec0)] }
        match loadDepsForF (fun st2 n2 => loadModule fs fuel2 st2 n2) st1 rec0 with
        | (.ok _, st2, log) => (.ok (LOut.found name), st2, log ++ [name])
        | (.error (LErr.depErr a b), st2, log) =>
          (.error (LErr.depErr a b), eraseMod st2 name, log)
        | (.error e, st2, log) => (.error e, st2, log)

/-- The names of all locatable modules not yet loaded: the recursion-depth
measure (each recursive `load_module` call happens after its caller's name
was inserted, so this strictly decreases with depth). -/
def locatableMissing (fs : Fs) (st : MState) : List String :=
  (fs.map Prod.fst).filter fun n => ¬ hasMod st n

/-- State evolution invariant of every load operation: loaded modules stay
loaded (the rollback only ever deletes the frame's own, newly inserted
name), and newly present modules were locatable. -/
def StInv (fs : Fs) (st st2 : MState) : Prop :=
  (∀ n, hasMod st n = true → hasMod st2 n = true)
    ∧ ∀ n, hasMod st2 n = true →
        hasMod st n = true ∨ (lookupFs fs n).isSome = true

/-- No `KeyError` escapes while libtbx is loaded. -/
def NoKey (st : MState) (r : Except LErr LOut) : Prop :=
  hasMod st "libtbx" = true → ∀ k, r ≠ .error (LErr.keyErr k)

/-- No `KeyError` escapes a dependency-loop result while libtbx is
loaded. -/
def NoKeyU (st : MState) (r : Except LErr Unit) : Prop :=
  hasMod st "libtbx" = true → ∀ k, r ≠ .error (LErr.keyErr k)

/-- Every module in the completion log is present afterwards and was not
present before. -/
def LogOK (st st2 : MState) (log : List String) : Prop :=
  ∀ n ∈ log, hasMod st2 n = true ∧ hasMod st n = false

/-- The combined behavioural invariant of a module loader. -/
def LoaderOK (fs : Fs)
    (lm : MState → String → (Except LErr LOut) × MState × List String) :
    Prop :=
  ∀ st name r st2 log, lm st name = (r, st2, log) →
    StInv fs st st2 ∧ NoKey st r ∧ LogOK st st2 log

end TbxModel

namespace EnvHeap

/-! # Heap-level model of `SConsEnvironment.Clone` (sconsemu.py)

The deep-copy claim is about Python object aliasing, so settings values
are modelled with an explicit heap: a list-valued setting is a reference
to a mutable heap cell, and `Append`/`Prepend`/in-place mutation write to
cells.  `Clone` goes through `__init__`'s `copy.deepcopy(kwargs)`,
modelled as taking the pure snapshot of the settings and re-allocating it
at fresh addresses (which is what deepcopy produces on the acyclic data
the snapshot hypothesis expresses). -/

/-- A heap address. -/
abbrev Addr := Nat

/-- A stored value: an immutable string or a reference to a heap list. -/
inductive HVal where
  | str (s : String)
  | ref (a : Addr)
deriving DecidableEq

/-- The heap: mutable list objects indexed by address. -/
structure Heap where
  cells : List (List HVal)
deriving DecidableEq

/-- Number of allocated cells. -/
def Heap.size (h : Heap) : Nat :=
  h.cells.length

/-- Dereference. -/
def Heap.getCell (h : Heap) (a : Addr) : Option (List HVal) :=
  h.cells[a]?

/-- In-place overwrite of one cell. -/
def Heap.setCell (h : Heap) (a : Addr) (vs : List HVal) : Heap :=
  { cells := h.cells.set a vs }

/-- Allocate a fresh list object. -/
def Heap.alloc (h : Heap) (vs : List HVal) : Heap × Addr :=
  ({ cells := h.cells ++ [vs] }, h.cells.length)

/-- A pure snapshot value (the denotation of a settings value). -/
inductive PVal where
  | str (s : String)
  | list (vs : List PVal)

mutual

/-- Materialise a pure value in the heap, allocating fresh cells. -/
def allocP (h : Heap) : PVal → Heap × HVal
  | .str s => (h, .str s)
  | .list vs =>
    let r := allocPs h vs
    let r2 := r.1.alloc r.2
    (r2.1, .ref r2.2)

/-- Materialise a list of pure values left to right. -/
def allocPs (h : Heap) : List PVal → Heap × List HVal
  | [] => (h, [])
  | v :: rest =>
    let r := allocP h v
    let r2 := allocPs r.1 rest
    (r2.1, r.2 :: r2.2)

end

/-- Read a cell's elements, given the reader for one stored value. -/
def readValsF (rv : HVal → Option PVal) : List HVal → Option (List PVal)
  | [] => some []
  | v :: rest =>
    match rv v with
    | none => none
    | some p =>
      match readValsF rv rest with
      | none => none
      | some ps => some (p :: ps)

/-- Read the pure snapshot of a stored value (fuel bounds dereference
depth; on the acyclic heaps the operations build, enough fuel exists). -/
def readVal (h : Heap) : Nat → HVal → Option PVal
  | _, .str s => some (.str s)
  | 0, .ref _ => none
  | fuel + 1, .ref a =>
    match h.getCell a with
    | none => none
    | some cell =>
      match readValsF (fun v => readVal h fuel v) cell with
      | none => none
      | some ps => some (.list ps)

/-- Read a cell's elements. -/
def readVals (h : Heap) (fuel : Nat) : List HVal → Option (List PVal) :=
  readValsF (readVal h fuel)

/-- The `kwargs` dict of one environment: keys bound to stored values. -/
abbrev Env := List (String × HVal)

/-- Does the dict have this key? -/
def hHasKey (env : Env) (k : String) : Bool :=
  env.any fun e => e.1 = k

/-- Dict lookup. -/
def hLookup (env : Env) (k : String) : Option HVal :=
  (env.find? fun e => e.1 = k).map Prod.snd

/-- Dict assignment (replace in place, else append). -/
def hSetKey (env : Env) (k : String) (v : HVal) : Env :=
  if hHasKey env k then env.map fun e => if e.1 = k then (k, v) else e
  else env ++ [(k, v)]

/-- Read the full settings snapshot of an environment. -/
def readEnv (h : Heap) (fuel : Nat) : Env → Option (List (String × PVal))
  | [] => some []
  | (k, v) :: rest =>
    match readVal h fuel v with
    | none => none
    | some p =>
      match readEnv h fuel rest with
      | none => none
      | some ps => some ((k, p) :: ps)

/-- Materialise a full snapshot as a fresh environment. -/
def allocEnv (h : Heap) : List (String × PVal) → Heap × Env
  | [] => (h, [])
  | (k, p) :: rest =>
    let r := allocP h p
    let r2 := allocEnv r.1 rest
    (r2.1, (k, r.2) :: r2.2)

/-- One step of `clone.kwargs.update(kwargs)`: materialise the override
value and assign it under its key. -/
def ovStep (acc : Heap × Env) (p : String × PVal) : Heap × Env :=
  let ra := allocP acc.1 p.2
  (ra.1, hSetKey acc.2 p.1 ra.2)

/-- `SConsEnvironment.Clone`: `type(self)(self.runner, **self.kwargs)`
deep-copies the settings (`copy.deepcopy` in `__init__`), then
`clone.kwargs.update(kwargs)` applies the clone call's own keyword
overrides (literal arguments, materialised at the call). -/
def cloneEnv (h : Heap) (fuel : Nat) (env : Env)
    (overrides : List (String × PVal)) : Option (Heap × Env) :=
  match readEnv h fuel env with
  | none => none
  | some snapshot =>
    let r := allocEnv h snapshot
    some (overrides.foldl ovStep r)

/-- Iterating an argument value after the `isinstance(val, str)` wrap. -/
def iterPElems : PVal → List PVal
  | .str s => [.str s]
  | .list vs => vs

/-- A subsequent settings mutation, as performed by build scripts:
`Append(k=v)`, `Prepend(k=v)`, `Replace(k=v)`, `env[k] = v`, or an
in-place `env[k].append(v)` on a list-valued setting. -/
inductive EnvOp where
  | append (k : String) (v : PVal)
  | prepend (k : String) (v : PVal)
  | replace (k : String) (v : PVal)
  | setitem (k : String) (v : PVal)
  | mutateAppend (k : String) (v : PVal)

/-- Apply one mutation to an environment over the heap.  `none` models a
Python `AttributeError`/`KeyError` (e.g. extending a non-list value). -/
def applyOp (h : Heap) (env : Env) : EnvOp → Option (Heap × Env)
  | .append k v =>
    let seeded :=
      if hHasKey env k then (h, env)
      else
        let ra := h.alloc []
        (ra.1, hSetKey env k (.ref ra.2))
    match hLookup seeded.2 k with
    | some (.ref a) =>
      match seeded.1.getCell a with
      | some cell =>
        let re := allocPs seeded.1 (iterPElems v)
        some (re.1.setCell a (cell ++ re.2), seeded.2)
      | none => none
    | _ => none
  | .prepend k v =>
    let seeded :=
      if hHasKey env k then (h, env)
      else
        let ra := h.alloc []
        (ra.1, hSetKey env k (.ref ra.2))
    match hLookup seeded.2 k with
    | some (.ref a) =>
      match seeded.1.getCell a with
      | some cell =>
        let re := allocPs seeded.1 (iterPElems v)
        some (re.1.setCell a (re.2 ++ cell), seeded.2)
      | none => none
    | _ => none
  | .replace k v =>
    let ra := allocP h v
    some (ra.1, hSetKey env k ra.2)
  | .setitem k v =>
    let ra := allocP h v
    some (ra.1, hSetKey env k ra.2)
  | .mutateAppend k v =>
    match hLookup env k with
    | some (.ref a) =>
      match h.getCell a with
      | some cell =>
        let ra := allocP h v
        some (ra.1.setCell a (cell ++ [ra.2]), env)
      | none => none
    | _ => none

/-- Does a stored value only reference addresses below `n`? -/
def valRefsBelow (n : Nat) : HVal → Bool
  | .str _ => true
  | .ref a => a < n

/-- Heap well-formedness: no dangling references. -/
def heapWF (h : Heap) : Bool :=
  h.cells.all fun cell => cell.all (valRefsBelow h.size)

/-- Do all of an environment's bindings reference only addresses
below `n`? -/
def envRefsBelow (n : Nat) (env : Env) : Bool :=
  env.all fun p => valRefsBelow n p.2

/-- A stored value's references lie inside an address region. -/
def ValInRegion (P : Addr → Prop) : HVal → Prop
  | .str _ => True
  | .ref a => P a

/-- Every cell of the region only references the region. -/
def RegionClosed (h : Heap) (P : Addr → Prop) : Prop :=
  ∀ a, P a → ∀ cell, h.getCell a = some cell → ∀ v ∈ cell, ValInRegion P v

/-- Two heaps agree on every cell of the region. -/
def AgreeOn (h1 h2 : Heap) (P : Addr → Prop) : Prop :=
  ∀ a, P a → h1.getCell a = h2.getCell a

/-- The second heap is the first plus newly allocated cells at the top. -/
def HExtends (h h2 : Heap) : Prop :=
  ∃ t, h2.cells = h.cells ++ t

/-- Every cell at or above the watermark `n` only references addresses
in `[n, h.size)`: the cells allocated since the watermark form a closed
region. -/
def NewCellsClosed (h : Heap) (n : Nat) : Prop :=
  ∀ a, n ≤ a → ∀ cell, h.getCell a = some cell →
    ∀ v ∈ cell, ValInRegion (fun b => n ≤ b ∧ b < h.size) v

/-- Is some binding of the dict a reference to this address? -/
def envHasRef (env : Env) (a : Addr) : Bool :=
  env.any fun e => e.2 = HVal.ref a

end EnvHeap

/-!
## Theorems

The claim theorems (and their supporting lemmas) over the embeddings
above.
-/

namespace Intercept

theorem foldl_enterStep_attrs {α : Type} (fakes : String → α)
    (ps : List (String × String)) (A : String → String → α)
    (O : String → String → Option α) (m n : String) :
    (ps.foldl (enterStep fakes) (A, O)).1 m n
      = if (m, n) ∈ ps then fakes n else A m n := by
  induction ps generalizing A O with
  | nil => simp
  | cons p rest ih =>
    rcases p with ⟨pm, pn⟩
    simp only [List.foldl_cons, enterStep]
    rw [ih]
    by_cases hmem : (m, n) ∈ rest
    · simp [hmem]
    · by_cases h1 : m = pm ∧ n = pn
      · rcases h1 with ⟨h1, h2⟩
        subst h1; subst h2
        simp [updAttr, hmem]
      · have hne : ¬ ((m, n) = (pm, pn)) := by
          intro hcon
          apply h1
          constructor
          · exact congrArg Prod.fst hcon
          · exact congrArg Prod.snd hcon
        simp [updAttr, hmem, hne, h1]

theorem foldl_enterStep_orig {α : Type} (fakes : String → α)
    (ps : List (String × String)) (A : String → String → α)
    (O : String → String → Option α) (hn : ps.Nodup) (m n : String) :
    (ps.foldl (enterStep fakes) (A, O)).2 m n
      = if (m, n) ∈ ps then some (A m n) else O m n := by
  induction ps generalizing A O with
  | nil => simp
  | cons p rest ih =>
    rcases p with ⟨pm, pn⟩
    rcases List.nodup_cons.mp hn with ⟨hpn, hrest⟩
    simp only [List.foldl_cons, enterStep]
    rw [ih _ _ hrest]
    by_cases hmem : (m, n) ∈ rest
    · have hne : ¬ ((m, n) = (pm, pn)) := by
        intro hcon
        rw [hcon] at hmem
        exact hpn hmem
      have : updAttr A (pm, pn) (fakes pn) m n = A m n := by
        have h1 : ¬ (m = pm ∧ n = pn) := by
          intro hcon
          exact hne (by rw [hcon.1, hcon.2])
        simp [updAttr, h1]
      simp [hmem, this]
    · by_cases h1 : m = pm ∧ n = pn
      · rcases h1 with ⟨h1, h2⟩
        subst h1; subst h2
        simp [updOrig, hmem]
      · have hne : ¬ ((m, n) = (pm, pn)) := by
          intro hcon
          apply h1
          exact ⟨congrArg Prod.fst hcon, congrArg Prod.snd hcon⟩
        simp [updOrig, hmem, hne, h1]

theorem foldlM_restore {α : Type} (orig : String → String → Option α)
    (ps : List (String × String)) (A : String → String → α)
    (hdef : ∀ p ∈ ps, ∃ v, orig p.1 p.2 = some v) :
    ∃ B, (ps.foldlM
        (fun a p =>
          match orig p.1 p.2 with
          | some v => pure (updAttr a p v)
          | none => Except.error "KeyError") A
        = (Except.ok B : Except String (String → String → α)))
      ∧ ∀ m n, ((m, n) ∈ ps → some (B m n) = orig m n)
          ∧ ((m, n) ∉ ps → B m n = A m n) := by
  induction ps generalizing A with
  | nil =>
    refine ⟨A, rfl, ?_⟩
    intro m n
    constructor
    · intro hmem
      exact absurd hmem (List.not_mem_nil _)
    · intro _
      rfl
  | cons p rest ih =>
    rcases hdef p (List.mem_cons_self p rest) with ⟨v, hv⟩
    have hdef2 : ∀ q ∈ rest, ∃ w, orig q.1 q.2 = some w := by
      intro q hq
      exact hdef q (List.mem_cons_of_mem p hq)
    rcases ih (updAttr A p v) hdef2 with ⟨B, hB, hBp⟩
    refine ⟨B, ?_, ?_⟩
    · simp only [List.foldlM_cons, hv]
      exact hB
    · intro m n
      constructor
      · intro hmem
        rcases List.mem_cons.mp hmem with hmem | hmem
        · by_cases hr : (m, n) ∈ rest
          · exact (hBp m n).1 hr
          · rw [(hBp m n).2 hr]
            rcases p with ⟨pm, pn⟩
            have h1a : m = pm := congrArg Prod.fst hmem
            have h1b : n = pn := congrArg Prod.snd hmem
            subst h1a; subst h1b
            simp only at hv
            simp [updAttr, hv]
        · exact (hBp m n).1 hmem
      · intro hmem
        have hr : (m, n) ∉ rest := fun hc => hmem (List.mem_cons_of_mem p hc)
        have hp : ¬ ((m, n) = p) := fun hc => hmem (hc ▸ List.mem_cons_self p rest)
        rw [(hBp m n).2 hr]
        rcases p with ⟨pm, pn⟩
        have h1 : ¬ (m = pm ∧ n = pn) := by
          intro hcon
          exact hp (by rw [hcon.1, hcon.2])
        simp [updAttr, h1]

theorem mem_exitPairs_iff (toR : List (String × List String))
    (p : String × String) : p ∈ exitPairs toR ↔ p ∈ enterPairs toR := by
  unfold exitPairs enterPairs
  simp only [List.mem_flatMap, List.mem_reverse]

end Intercept

/-- C6 counterexample: for the interceptor configuration used by the
program (`_fake_system_env.to_rewrite`), the restoration sequence of
`__exit__` is not the reverse of the replacement sequence of `__enter__`:
only the module list is reversed, while the names within each module are
restored in forward order. -/
theorem c6_counterexample_restoration_order :
    Intercept.exitPairs Intercept.actualToRewrite
      ≠ (Intercept.enterPairs Intercept.actualToRewrite).reverse := by
  decide

/-- C6 (amended): for every interceptor scope over distinct
(module, function-name) pairs, exiting restores every module attribute to
exactly the value it held on entry (intercepted pairs to their saved
originals, all others untouched), iterating the module list in reverse
order (with each module's names in forward order), and the
`SystemEnvInterceptor.current` singleton is reset to none. -/
theorem c6_exit_restores_exactly {α : Type} (I : Intercept.Interceptor α)
    (st : Intercept.SysState α)
    (hn : (Intercept.enterPairs I.toRewrite).Nodup)
    (hc : st.currentActive = false) :
    ∃ st1 orig st2,
      Intercept.interceptorEnter I st = Except.ok (st1, orig)
        ∧ Intercept.interceptorExit I st1 orig = Except.ok st2
        ∧ (∀ m n, st2.attrs m n = st.attrs m n)
        ∧ st2.currentActive = false := by
  have henter : Intercept.interceptorEnter I st
      = Except.ok
        ({ attrs := ((Intercept.enterPairs I.toRewrite).foldl
              (Intercept.enterStep I.fakes) (st.attrs, fun _ _ => none)).1,
           currentActive := true },
         ((Intercept.enterPairs I.toRewrite).foldl
              (Intercept.enterStep I.fakes) (st.attrs, fun _ _ => none)).2) := by
    unfold Intercept.interceptorEnter
    rw [hc]
    simp
  set orig := ((Intercept.enterPairs I.toRewrite).foldl
      (Intercept.enterStep I.fakes) (st.attrs, fun _ _ => none)).2 with horig
  set A1 := ((Intercept.enterPairs I.toRewrite).foldl
      (Intercept.enterStep I.fakes) (st.attrs, fun _ _ => none)).1 with hA1
  have horigEq : ∀ m n, orig m n
      = if (m, n) ∈ Intercept.enterPairs I.toRewrite
        then some (st.attrs m n) else none := by
    intro m n
    rw [horig, Intercept.foldl_enterStep_orig I.fakes _ _ _ hn]
  have hA1Eq : ∀ m n, A1 m n
      = if (m, n) ∈ Intercept.enterPairs I.toRewrite
        then I.fakes n else st.attrs m n := by
    intro m n
    rw [hA1, Intercept.foldl_enterStep_attrs]
  have hdef : ∀ p ∈ Intercept.exitPairs I.toRewrite, ∃ v, orig p.1 p.2 = some v := by
    intro p hp
    have hp2 : p ∈ Intercept.enterPairs I.toRewrite :=
      (Intercept.mem_exitPairs_iff I.toRewrite p).mp hp
    refine ⟨st.attrs p.1 p.2, ?_⟩
    rw [horigEq p.1 p.2]
    simp [hp2]
  rcases Intercept.foldlM_restore orig (Intercept.exitPairs I.toRewrite) A1 hdef
    with ⟨B, hB, hBp⟩
  refine ⟨{ attrs := A1, currentActive := true }, orig,
    { attrs := B, currentActive := false }, henter, ?_, ?_, rfl⟩
  · unfold Intercept.interceptorExit
    rw [hB]
    rfl
  · intro m n
    by_cases hmem : (m, n) ∈ Intercept.enterPairs I.toRewrite
    · have hmem2 : (m, n) ∈ Intercept.exitPairs I.toRewrite :=
        (Intercept.mem_exitPairs_iff I.toRewrite (m, n)).mpr hmem
      have h1 := (hBp m n).1 hmem2
      rw [horigEq m n] at h1
      simp only [hmem, if_true] at h1
      show B m n = st.attrs m n
      exact Option.some.inj h1
    · have hmem2 : (m, n) ∉ Intercept.exitPairs I.toRewrite := by
        intro hc2
        exact hmem ((Intercept.mem_exitPairs_iff I.toRewrite (m, n)).mp hc2)
      show B m n = st.attrs m n
      rw [(hBp m n).2 hmem2, hA1Eq m n]
      simp [hmem]

/-- C6 witness: the amended theorem applied to the program's interceptor
configuration with a concrete attribute store. -/
theorem c6_exit_restores_exactly_witness :
    ∃ st1 orig st2,
      Intercept.interceptorEnter
          ⟨Intercept.actualToRewrite, fun n => "fake_" ++ n⟩
          ⟨fun m n => m ++ "." ++ n, false⟩ = Except.ok (st1, orig)
        ∧ Intercept.interceptorExit
            ⟨Intercept.actualToRewrite, fun n => "fake_" ++ n⟩ st1 orig
            = Except.ok st2
        ∧ (∀ m n, st2.attrs m n = (fun m n => m ++ "." ++ n) m n)
        ∧ st2.currentActive = false :=
  c6_exit_restores_exactly
    ⟨Intercept.actualToRewrite, fun n => "fake_" ++ n⟩
    ⟨fun m n => m ++ "." ++ n, false⟩ (by decide) rfl

/-- C1: parsing a top-level script whose nested sub-script raises leaves
`_current_sconscript` pointing at the failing sub-script after the
exception propagates out of `parse_sconscript` — not restored to the
value (`None`) it held before the call, because the restore statement is
skipped on the exception path. -/
theorem c1_pointer_not_restored_on_exception :
    ScriptStack.parseSconscript none "top"
        [ScriptStack.SStmt.subscript "child"
          [ScriptStack.SStmt.raiseErr "MissingDistError"]]
      = Except.error ("MissingDistError", some "child")
      ∧ some "child" ≠ (none : ScriptStack.Ptr) := by
  constructor
  · simp [ScriptStack.parseSconscript, ScriptStack.execBody, ScriptStack.execStmt]
  · intro hcon
    exact Option.noConfusion hcon

namespace EnvPure

theorem find_none_of_hasKey_false (kw : List (String × SVal)) (k : String)
    (hk : hasKey kw k = false) :
    (kw.find? fun e => e.1 = k) = none := by
  rw [List.find?_eq_none]
  intro x hx
  unfold hasKey at hk
  rw [List.any_eq_false] at hk
  exact fun hc => by simpa [hc] using hk x hx

theorem lookupKey_append_self (kw : List (String × SVal)) (k : String) (v : SVal)
    (hk : hasKey kw k = false) :
    lookupKey (kw ++ [(k, v)]) k = some v := by
  unfold lookupKey
  rw [List.find?_append, find_none_of_hasKey_false kw k hk]
  simp

theorem lookupKey_mapReplace_self (kw : List (String × SVal)) (k : String) (v : SVal)
    (hk : hasKey kw k = true) :
    lookupKey (kw.map fun e => if e.1 = k then (k, v) else e) k = some v := by
  induction kw with
  | nil => simp [hasKey] at hk
  | cons e rest ih =>
    by_cases he : e.1 = k
    · simp [lookupKey, List.find?, he]
    · have hr : hasKey rest k = true := by
        unfold hasKey at hk ⊢
        simp only [List.any_cons, Bool.or_eq_true] at hk
        rcases hk with hk | hk
        · exact absurd (of_decide_eq_true hk) he
        · exact hk
      have := ih hr
      unfold lookupKey at this ⊢
      simp only [List.map_cons, if_neg he, List.find?, decide_eq_false he]
      exact this

theorem lookupKey_setKey_self (kw : List (String × SVal)) (k : String) (v : SVal) :
    lookupKey (setKey kw k v) k = some v := by
  unfold setKey
  by_cases hk : hasKey kw k = true
  · rw [if_pos hk]
    exact lookupKey_mapReplace_self kw k v hk
  · rw [if_neg hk]
    exact lookupKey_append_self kw k v (by simpa using hk)

theorem hasKey_setKey_self (kw : List (String × SVal)) (k : String) (v : SVal) :
    hasKey (setKey kw k v) k = true := by
  have h := lookupKey_setKey_self kw k v
  unfold lookupKey at h
  unfold hasKey
  rcases hf : (setKey kw k v).find? fun e => e.1 = k with _ | e2
  · rw [hf] at h
    simp at h
  · have hm := List.find?_some hf
    have hmem := List.mem_of_find?_eq_some hf
    simp only [List.any_eq_true]
    refine ⟨e2, hmem, hm⟩

end EnvPure

/-- C9: `Append`/`Prepend` on a setting key that was never explicitly set
seed it with an empty list rather than with the class-level default, so
the result is exactly the coerced appended value — even though reading the
same key beforehand via `__getitem__` returns the class default. -/
theorem c9_append_seeds_empty_not_default (kw : List (String × EnvPure.SVal))
    (k : String) (v : EnvPure.SVal) (hk : EnvPure.hasKey kw k = false) :
    (∃ e1, EnvPure.envAppend1 ⟨kw⟩ k v = some e1
      ∧ EnvPure.envGet e1 k = some (EnvPure.SVal.l (EnvPure.iterElems v)))
    ∧ (∃ e2, EnvPure.envPrepend1 ⟨kw⟩ k v = some e2
      ∧ EnvPure.envGet e2 k = some (EnvPure.SVal.l (EnvPure.iterElems v)))
    ∧ EnvPure.envGet ⟨kw⟩ k = EnvPure.lookupKey EnvPure.defaultKwargs k := by
  refine ⟨?_, ?_, ?_⟩
  · refine ⟨⟨EnvPure.setKey (EnvPure.setKey kw k (EnvPure.SVal.l [])) k
      (EnvPure.SVal.l (EnvPure.iterElems v))⟩, ?_, ?_⟩
    · unfold EnvPure.envAppend1
      simp only [hk, Bool.false_eq_true, if_false,
        EnvPure.lookupKey_setKey_self, List.nil_append]
    · unfold EnvPure.envGet
      rw [if_pos (EnvPure.hasKey_setKey_self _ _ _)]
      exact EnvPure.lookupKey_setKey_self _ _ _
  · refine ⟨⟨EnvPure.setKey (EnvPure.setKey kw k (EnvPure.SVal.l [])) k
      (EnvPure.SVal.l (EnvPure.iterElems v))⟩, ?_, ?_⟩
    · unfold EnvPure.envPrepend1
      simp only [hk, Bool.false_eq_true, if_false,
        EnvPure.lookupKey_setKey_self, List.append_nil]
    · unfold EnvPure.envGet
      rw [if_pos (EnvPure.hasKey_setKey_self _ _ _)]
      exact EnvPure.lookupKey_setKey_self _ _ _
  · unfold EnvPure.envGet
    simp [hk]

/-- C9 witness: on a fresh environment, `Append(SHLINKCOM=["x"])` yields
`["x"]` (not `["SHLINKCOMDEFAULT", "x"]`), although reading `SHLINKCOM`
beforehand returns the non-empty class default. -/
theorem c9_append_seeds_empty_not_default_witness :
    (∃ e1, EnvPure.envAppend1 ⟨[]⟩ "SHLINKCOM" (EnvPure.SVal.l [EnvPure.SVal.s "x"])
        = some e1
      ∧ EnvPure.envGet e1 "SHLINKCOM"
        = some (EnvPure.SVal.l (EnvPure.iterElems (EnvPure.SVal.l [EnvPure.SVal.s "x"]))))
    ∧ (∃ e2, EnvPure.envPrepend1 ⟨[]⟩ "SHLINKCOM" (EnvPure.SVal.l [EnvPure.SVal.s "x"])
        = some e2
      ∧ EnvPure.envGet e2 "SHLINKCOM"
        = some (EnvPure.SVal.l (EnvPure.iterElems (EnvPure.SVal.l [EnvPure.SVal.s "x"]))))
    ∧ EnvPure.envGet ⟨[]⟩ "SHLINKCOM"
      = EnvPure.lookupKey EnvPure.defaultKwargs "SHLINKCOM" :=
  c9_append_seeds_empty_not_default [] "SHLINKCOM"
    (EnvPure.SVal.l [EnvPure.SVal.s "x"]) rfl

namespace ReadScons

theorem dedupTargetNames_ok_nodup (ts r : List TRec)
    (h : dedupTargetNames ts = .ok r) : (r.map TRec.name).Nodup := by
  unfold dedupTargetNames at h
  cases hf : (dupNames (ts.map TRec.name)).foldlM renameDup ts with
  | error e =>
    rw [hf] at h
    simp [Bind.bind, Except.bind] at h
  | ok ts2 =>
    rw [hf] at h
    simp only [Bind.bind, Except.bind] at h
    by_cases hnodup : (ts2.map TRec.name).Nodup
    · rw [if_pos hnodup] at h
      cases h
      exact hnodup
    · rw [if_neg hnodup] at h
      cases h

end ReadScons

/-- C8: name-deduplication is idempotent — if `_deduplicate_target_names`
completes on a target list, running it again finds no duplicated names
(so performs no renames) and returns the same list unchanged. -/
theorem c8_dedup_idempotent (ts r : List ReadScons.TRec)
    (h : ReadScons.dedupTargetNames ts = .ok r) :
    ReadScons.dupNames (r.map ReadScons.TRec.name) = []
      ∧ ReadScons.dedupTargetNames r = .ok r := by
  have hnd := ReadScons.dedupTargetNames_ok_nodup ts r h
  have hdup : ReadScons.dupNames (r.map ReadScons.TRec.name) = [] := by
    unfold ReadScons.dupNames
    rw [List.filter_eq_nil_iff]
    intro a _
    have hcount := List.nodup_iff_count_le_one.mp hnd a
    simp only [decide_eq_true_eq, not_lt]
    omega
  refine ⟨hdup, ?_⟩
  unfold ReadScons.dedupTargetNames
  rw [hdup]
  simp only [List.foldlM_nil, Bind.bind, Except.bind, Pure.pure, Except.pure,
    if_pos hnd]

/-- C8 witness: two targets named `utils` from modules `modA`/`modB` are
renamed once; the second run changes nothing. -/
theorem c8_dedup_idempotent_witness :
    ReadScons.dupNames (([⟨"utils_modA", "modA"⟩, ⟨"utils_modB", "modB"⟩] :
        List ReadScons.TRec).map ReadScons.TRec.name) = []
      ∧ ReadScons.dedupTargetNames
          [⟨"utils_modA", "modA"⟩, ⟨"utils_modB", "modB"⟩]
        = .ok [⟨"utils_modA", "modA"⟩, ⟨"utils_modB", "modB"⟩] :=
  c8_dedup_idempotent [⟨"utils", "modA"⟩, ⟨"utils", "modB"⟩]
    [⟨"utils_modA", "modA"⟩, ⟨"utils_modB", "modB"⟩] (by rfl)

/-- C7: in `_create_target` (given that the steps before the link-flag
check succeed: a well-formed target argument, a successful clone-append,
and a well-formed `LIBS` list), the known-benign flags are stripped from
the looked-up shared-link-flag list and the creation fails with the
link-flag assertion if and only if some other flag remains after
stripping. -/
theorem c7_linkflag_assert_iff (env : EnvPure.SEnv) (ttype : EnvPure.TType)
    (targ : EnvPure.TargetArg) (src : List String)
    (kw : List (String × EnvPure.SVal)) (env2 : EnvPure.SEnv)
    (libsE lf : List EnvPure.SVal) (flat : List String)
    (ht : match targ with
      | EnvPure.TargetArg.one _ => True
      | EnvPure.TargetArg.many ss => ss.length = 1)
    (hA : EnvPure.envAppend (EnvPure.envClone env []) kw = some env2)
    (hL : EnvPure.envGet env2 "LIBS" = some (EnvPure.SVal.l libsE))
    (hF : EnvPure.flattenLibs libsE = .ok flat)
    (hS : EnvPure.envGet env2 "SHLINKFLAGS" = some (EnvPure.SVal.l lf)) :
    (EnvPure.createTarget env ttype targ src kw
        = .error (EnvPure.CTErr.unknownLinkFlags
            (EnvPure.flagStrings (EnvPure.stripLinkFlags lf))))
      ↔ EnvPure.stripLinkFlags lf ≠ [] := by
  have hmain : ∀ s : String,
      (EnvPure.createTarget env ttype (EnvPure.TargetArg.one s) src kw
          = .error (EnvPure.CTErr.unknownLinkFlags
              (EnvPure.flagStrings (EnvPure.stripLinkFlags lf))))
        ↔ EnvPure.stripLinkFlags lf ≠ [] := by
    intro s
    unfold EnvPure.createTarget
    simp only [hA, hL, hF, hS, Bind.bind, Except.bind]
    by_cases hemp : (EnvPure.stripLinkFlags lf).isEmpty = true
    · have hnil : EnvPure.stripLinkFlags lf = [] := by
        simpa using hemp
      rw [if_neg (by simp [hemp])]
      constructor
      · intro hcon
        exfalso
        cases ttype with
        | shared =>
          rcases henv : EnvPure.envGet env2 "SHLIBPREFIX" with _ | sv
          · simp [henv] at hcon
          · rcases sv with sv | svl | svd
            · simp [henv] at hcon
            · simp [henv] at hcon
            · simp [henv] at hcon
        | static =>
          rcases henv : EnvPure.envGet env2 "LIBPREFIX" with _ | sv
          · simp [henv] at hcon
          · rcases sv with sv | svl | svd
            · simp [henv] at hcon
            · simp [henv] at hcon
            · simp [henv] at hcon
        | program => simp at hcon
        | modType => simp at hcon
        | cudalib => simp at hcon
        | object => simp at hcon
      · intro hcon
        exact absurd hnil hcon
    · rw [if_pos (by simpa using hemp)]
      have hne : EnvPure.stripLinkFlags lf ≠ [] := by
        intro hc
        exact hemp (by simp [hc])
      simp [hne]
  cases targ with
  | one s => exact hmain s
  | many ss =>
    simp only at ht
    rcases List.length_eq_one.mp ht with ⟨s, rfl⟩
    have : EnvPure.createTarget env ttype (EnvPure.TargetArg.many [s]) src kw
        = EnvPure.createTarget env ttype (EnvPure.TargetArg.one s) src kw := by
      unfold EnvPure.createTarget
      rfl
    rw [this]
    exact hmain s

/-- C7 witness: an environment whose `SHLINKFLAGS` holds one unknown flag
makes target creation fail with the link-flag assertion. -/
theorem c7_linkflag_assert_iff_witness :
    (EnvPure.createTarget ⟨[("SHLINKFLAGS", EnvPure.SVal.l [EnvPure.SVal.s "-bogus"])]⟩
        EnvPure.TType.program (EnvPure.TargetArg.one "tgt") [] []
        = .error (EnvPure.CTErr.unknownLinkFlags
            (EnvPure.flagStrings
              (EnvPure.stripLinkFlags [EnvPure.SVal.s "-bogus"]))))
      ↔ EnvPure.stripLinkFlags [EnvPure.SVal.s "-bogus"] ≠ [] :=
  c7_linkflag_assert_iff
    ⟨[("SHLINKFLAGS", EnvPure.SVal.l [EnvPure.SVal.s "-bogus"])]⟩
    EnvPure.TType.program (EnvPure.TargetArg.one "tgt") [] []
    ⟨[("SHLINKFLAGS", EnvPure.SVal.l [EnvPure.SVal.s "-bogus"])]⟩
    [] [EnvPure.SVal.s "-bogus"] [] trivial rfl rfl
    (by simp [EnvPure.flattenLibs]) rfl

namespace ReadScons

theorem targetsOfMods_removeTargetOnce (ms : List PModule) (t x : PTarget)
    (hx : x ∈ (removeTargetOnce ms t).flatMap PModule.targets) :
    x ∈ ms.flatMap PModule.targets := by
  induction ms with
  | nil => simp [removeTargetOnce] at hx
  | cons m rest ih =>
    unfold removeTargetOnce at hx
    by_cases hm : t ∈ m.targets
    · rw [if_pos hm] at hx
      simp only [List.flatMap_cons, List.mem_append] at hx ⊢
      rcases hx with hx | hx
      · exact Or.inl (List.mem_of_mem_erase hx)
      · exact Or.inr hx
    · rw [if_neg hm] at hx
      simp only [List.flatMap_cons, List.mem_append] at hx ⊢
      rcases hx with hx | hx
      · exact Or.inl hx
      · exact Or.inr (ih hx)

theorem moveOne_preserves (P : PTarget → Prop)
    (hP : ∀ t s, P t → P { t with originPath := s })
    (d : PDist) (t : PTarget) (hall : ∀ x ∈ allTargets d, P x) (ht : P t) :
    ∀ x ∈ allTargets (moveOne d t), P x := by
  intro x hx
  unfold moveOne at hx
  cases hfm : findModule d t.name with
  | none =>
    rw [hfm] at hx
    exact hall x hx
  | some dest =>
    rw [hfm] at hx
    unfold allTargets at hx
    simp only [List.mem_flatMap, List.mem_map] at hx
    rcases hx with ⟨m2, hm2, hxm2⟩
    rcases hm2 with ⟨m0, hm0, hmap⟩
    by_cases hname : m0.name = t.name
    · rw [← hmap] at hxm2
      simp only [hname, if_pos] at hxm2
      simp only [List.mem_append, List.mem_singleton] at hxm2
      rcases hxm2 with hxm2 | hxm2
      · apply hall
        show x ∈ d.modules.flatMap fun m => m.targets
        exact targetsOfMods_removeTargetOnce d.modules t x
          (List.mem_flatMap.mpr ⟨m0, hm0, hxm2⟩)
      · rw [hxm2]
        exact hP t dest.path ht
    · rw [← hmap] at hxm2
      simp only [hname, if_neg, if_false] at hxm2
      apply hall
      show x ∈ d.modules.flatMap fun m => m.targets
      exact targetsOfMods_removeTargetOnce d.modules t x
        (List.mem_flatMap.mpr ⟨m0, hm0, hxm2⟩)

theorem foldl_moveOne_preserves (P : PTarget → Prop)
    (hP : ∀ t s, P t → P { t with originPath := s })
    (items : List PTarget) (d : PDist)
    (hall : ∀ x ∈ allTargets d, P x) (hitems : ∀ t ∈ items, P t) :
    ∀ x ∈ allTargets (items.foldl moveOne d), P x := by
  induction items generalizing d with
  | nil => simpa using hall
  | cons t rest ih =>
    simp only [List.foldl_cons]
    exact ih (moveOne d t)
      (moveOne_preserves P hP d t hall (hitems t (List.mem_cons_self t rest)))
      (fun y hy => hitems y (List.mem_cons_of_mem t hy))

theorem moveModuleNamedTargets_preserves (P : PTarget → Prop)
    (hP : ∀ t s, P t → P { t with originPath := s })
    (d : PDist) (hall : ∀ x ∈ allTargets d, P x) :
    ∀ x ∈ allTargets (moveModuleNamedTargets d), P x := by
  unfold moveModuleNamedTargets
  apply foldl_moveOne_preserves P hP _ d hall
  intro t ht
  exact hall t (List.mem_of_mem_filter ht)

theorem allTargets_dropNonModules_subset (d : PDist) (x : PTarget)
    (hx : x ∈ allTargets (dropNonModules d)) : x ∈ allTargets d := by
  unfold allTargets dropNonModules at hx
  simp only [List.mem_flatMap] at hx
  rcases hx with ⟨m, hm, hxm⟩
  show x ∈ d.modules.flatMap fun m => m.targets
  exact List.mem_flatMap.mpr ⟨m, List.mem_of_mem_filter hm, hxm⟩

theorem checkAsserts_ok (d r : PDist) (h : checkAsserts d = .ok r) :
    r = d ∧ ∀ t ∈ allTargets d, prefixTypeOK t = true := by
  unfold checkAsserts at h
  by_cases hall : (allTargets d).all prefixTypeOK = true
  · rw [if_pos hall] at h
    cases h
    exact ⟨rfl, List.all_eq_true.mp hall⟩
  · rw [if_neg hall] at h
    cases h

theorem checkExternalLibs_ok (d r : PDist) (h : checkExternalLibs d = .ok r) :
    r = d := by
  unfold checkExternalLibs at h
  by_cases hu : (let allLibs := ((allTargets d).flatMap PTarget.extraLibs).eraseDups
      let targetNames := (allTargets d).map PTarget.name
      let external := allLibs.filter fun v => ¬ v ∈ targetNames
      external.filter fun v => ¬ v ∈ expectedExternalLibs).isEmpty = true
  · simp only [if_pos hu] at h
    cases h
    rfl
  · simp only [if_neg hu] at h
    cases h

end ReadScons

/-- C3: whenever the `read_distribution` post-processing completes without
raising, every target in the final collection satisfies the prefix
invariant: SHARED and STATIC targets have prefix "lib" and MODULE
(python-extension) targets have prefix "". -/
theorem c3_prefix_invariant (d d2 : ReadScons.PDist)
    (h : ReadScons.readDistributionPost d = .ok d2) :
    ∀ t ∈ ReadScons.allTargets d2, ReadScons.prefixTypeOK t = true := by
  unfold ReadScons.readDistributionPost at h
  dsimp only at h
  cases hdedup : ReadScons.distDedup
      (ReadScons.removeCudaTargets
        (ReadScons.removeUnwantedModules (ReadScons.removeBoostTargets d))) with
  | error e =>
    rw [hdedup] at h
    simp [Bind.bind, Except.bind] at h
  | ok d4 =>
    rw [hdedup] at h
    simp only [Bind.bind, Except.bind] at h
    cases hca : ReadScons.checkAsserts (ReadScons.reclassifyModules d4) with
    | error e =>
      rw [hca] at h
      simp at h
    | ok d6 =>
      rw [hca] at h
      rcases ReadScons.checkAsserts_ok _ _ hca with ⟨rfl, hall⟩
      have hd2 := ReadScons.checkExternalLibs_ok _ _ h
      subst hd2
      intro t ht
      have ht7 := ReadScons.allTargets_dropNonModules_subset _ _ ht
      refine ReadScons.moveModuleNamedTargets_preserves
        (fun x => ReadScons.prefixTypeOK x = true) ?_ _ hall t ht7
      intro x s hx
      exact hx

namespace DepGraph

theorem addNode_edges (G : DGraph) (n : String) :
    (addNode G n).edges = G.edges := by
  unfold addNode
  split <;> rfl

theorem addNode_nodes_mono (G : DGraph) (n x : String) (hx : x ∈ G.nodes) :
    x ∈ (addNode G n).nodes := by
  unfold addNode
  split
  · exact hx
  · exact List.mem_append_left _ hx

theorem addNode_mem_self (G : DGraph) (n : String) : n ∈ (addNode G n).nodes := by
  unfold addNode
  split
  · assumption
  · exact List.mem_append_right _ (List.mem_singleton.mpr rfl)

theorem addEdge_edges_mono (G : DGraph) (a b : String) (e : String × String)
    (he : e ∈ G.edges) : e ∈ (addEdge G a b).edges := by
  unfold addEdge
  dsimp only
  split
  · simpa [addNode_edges] using he
  · show e ∈ (addNode (addNode G a) b).edges ++ [(a, b)]
    exact List.mem_append_left _ (by simpa [addNode_edges] using he)

theorem addEdge_mem_self (G : DGraph) (a b : String) :
    (a, b) ∈ (addEdge G a b).edges := by
  unfold addEdge
  dsimp only
  split
  · assumption
  · show (a, b) ∈ (addNode (addNode G a) b).edges ++ [(a, b)]
    exact List.mem_append_right _ (List.mem_singleton.mpr rfl)

theorem addEdge_nodes_mono (G : DGraph) (a b x : String) (hx : x ∈ G.nodes) :
    x ∈ (addEdge G a b).nodes := by
  unfold addEdge
  dsimp only
  have h1 : x ∈ (addNode (addNode G a) b).nodes :=
    addNode_nodes_mono _ _ _ (addNode_nodes_mono _ _ _ hx)
  split
  · exact h1
  · exact h1

theorem addEdge_fst_mem (G : DGraph) (a b : String) :
    a ∈ (addEdge G a b).nodes := by
  unfold addEdge
  dsimp only
  have h1 : a ∈ (addNode (addNode G a) b).nodes :=
    addNode_nodes_mono _ _ _ (addNode_mem_self G a)
  split
  · exact h1
  · exact h1

theorem addEdge_snd_mem (G : DGraph) (a b : String) :
    b ∈ (addEdge G a b).nodes := by
  unfold addEdge
  dsimp only
  have h1 : b ∈ (addNode (addNode G a) b).nodes := addNode_mem_self _ b
  split
  · exact h1
  · exact h1

theorem reqFold_edges_mono (nm : String) (reqs : List String) (G : DGraph)
    (e : String × String) (he : e ∈ G.edges) :
    e ∈ (reqs.foldl (fun g req => addEdge g nm req) G).edges := by
  induction reqs generalizing G with
  | nil => exact he
  | cons r rest ih => exact ih _ (addEdge_edges_mono _ _ _ _ he)

theorem reqFold_mem (nm : String) (reqs : List String) (G : DGraph)
    (req : String) (hreq : req ∈ reqs) :
    (nm, req) ∈ (reqs.foldl (fun g req => addEdge g nm req) G).edges := by
  induction reqs generalizing G with
  | nil => exact absurd hreq (List.not_mem_nil _)
  | cons r rest ih =>
    rcases List.mem_cons.mp hreq with h | h
    · subst h
      exact reqFold_edges_mono nm rest _ _ (addEdge_mem_self G nm req)
    · exact ih _ h

theorem addModuleEdges_edges_mono (G : DGraph) (m : GModule)
    (e : String × String) (he : e ∈ G.edges) :
    e ∈ (addModuleEdges G m).edges := by
  unfold addModuleEdges
  have h1 := reqFold_edges_mono m.name m.required G e he
  split
  · exact h1
  · exact addEdge_edges_mono _ _ _ _ h1

theorem addModuleEdges_mem (G : DGraph) (m : GModule) (req : String)
    (hreq : req ∈ m.required) :
    (m.name, req) ∈ (addModuleEdges G m).edges := by
  unfold addModuleEdges
  have h1 := reqFold_mem m.name m.required G req hreq
  split
  · exact h1
  · exact addEdge_edges_mono _ _ _ _ h1

theorem modulesFold_edges_mono (modules : List GModule) (G : DGraph)
    (e : String × String) (he : e ∈ G.edges) :
    e ∈ (modules.foldl addModuleEdges G).edges := by
  induction modules generalizing G with
  | nil => exact he
  | cons m rest ih => exact ih _ (addModuleEdges_edges_mono _ _ _ he)

theorem modulesFold_mem (modules : List GModule) (G : DGraph) (m : GModule)
    (hm : m ∈ modules) (req : String) (hreq : req ∈ m.required) :
    (m.name, req) ∈ (modules.foldl addModuleEdges G).edges := by
  induction modules generalizing G with
  | nil => exact absurd hm (List.not_mem_nil _)
  | cons m2 rest ih =>
    rcases List.mem_cons.mp hm with h | h
    · subst h
      exact modulesFold_edges_mono rest _ _ (addModuleEdges_mem G m req hreq)
    · exact ih _ h

theorem adaptbxFold_edges_mono (lst : List (String × String)) (H : DGraph)
    (e : String × String) (he : e ∈ H.edges) :
    e ∈ (lst.foldl adaptbxStep H).edges := by
  induction lst generalizing H with
  | nil => exact he
  | cons x rest ih =>
    apply ih
    unfold adaptbxStep
    dsimp only
    split
    · exact addEdge_edges_mono _ _ _ _ he
    · exact he

/-- C2, construction part: every declared requirement appears as an edge
of the graph before cycle breaking. -/
theorem edge_in_raw (modules : List GModule) (m : GModule) (hm : m ∈ modules)
    (req : String) (hreq : req ∈ m.required) :
    (m.name, req) ∈ (buildGraphRaw modules).edges := by
  unfold buildGraphRaw addAdaptbxEdges
  apply adaptbxFold_edges_mono
  apply addEdge_edges_mono
  exact modulesFold_mem modules _ m hm req hreq

end DepGraph

namespace DepGraph

theorem findPath_sound (es : List (String × String)) :
    ∀ (fuel : Nat) (a tgt : String) (p : List (String × String)),
      findPath es fuel a tgt = some p → ∀ x ∈ p, x ∈ es := by
  intro fuel
  induction fuel with
  | zero =>
    intro a tgt p h
    simp [findPath] at h
  | succ f ih =>
    intro a tgt p h
    unfold findPath at h
    by_cases hm : (a, tgt) ∈ es
    · rw [if_pos hm] at h
      cases h
      intro x hx
      rw [List.mem_singleton.mp hx]
      exact hm
    · rw [if_neg hm] at h
      rcases List.exists_of_findSome?_eq_some h with ⟨e, he, hfe⟩
      rcases Option.map_eq_some'.mp hfe with ⟨p2, hp2, hp2e⟩
      subst hp2e
      intro x hx
      rcases List.mem_cons.mp hx with hx1 | hx2
      · rw [hx1]
        exact List.mem_of_mem_filter he
      · exact ih e.2 tgt p2 hp2 x hx2

theorem findAnyCycle_sound (G : DGraph) (c : List (String × String))
    (h : findAnyCycle G = some c) : ∀ x ∈ c, x ∈ G.edges := by
  unfold findAnyCycle at h
  rcases List.exists_of_findSome?_eq_some h with ⟨n, _, hf⟩
  exact findPath_sound G.edges _ n n c hf

theorem pickStep_ok_cases (modules : List GModule)
    (acc : Option (Nat × (String × String))) (e : String × String)
    (r : Option (Nat × (String × String)))
    (h : pickStep modules acc e = .ok r) :
    r = acc ∨ ∃ pr, r = some (pr, e) := by
  unfold pickStep at h
  cases hp : edgePriority modules e.1 e.2 with
  | error err =>
    rw [hp] at h
    simp [Bind.bind, Except.bind] at h
  | ok p =>
    rw [hp] at h
    simp only [Bind.bind, Except.bind] at h
    cases acc with
    | none =>
      simp only [Pure.pure, Except.pure] at h
      cases h
      exact Or.inr ⟨p, rfl⟩
    | some lp =>
      dsimp only at h
      by_cases hgt : p > lp.1
      · rw [if_pos hgt] at h
        simp only [Pure.pure, Except.pure] at h
        cases h
        exact Or.inr ⟨p, rfl⟩
      · rw [if_neg hgt] at h
        simp only [Pure.pure, Except.pure] at h
        cases h
        exact Or.inl rfl

theorem pickFold_mem (modules : List GModule) (cyc : List (String × String)) :
    ∀ acc r, cyc.foldlM (pickStep modules) acc = .ok r →
      r = acc ∨ ∃ pr e, e ∈ cyc ∧ r = some (pr, e) := by
  induction cyc with
  | nil =>
    intro acc r h
    simp only [List.foldlM_nil] at h
    cases h
    exact Or.inl rfl
  | cons e rest ih =>
    intro acc r h
    simp only [List.foldlM_cons] at h
    cases hs : pickStep modules acc e with
    | error err =>
      rw [hs] at h
      simp [Bind.bind, Except.bind] at h
    | ok acc2 =>
      rw [hs] at h
      simp only [Bind.bind, Except.bind] at h
      rcases ih acc2 r h with hr | ⟨pr, e2, he2, hr⟩
      · subst hr
        rcases pickStep_ok_cases modules acc e r hs with hr2 | ⟨pr, hpr⟩
        · exact Or.inl hr2
        · exact Or.inr ⟨pr, e, List.mem_cons_self e rest, hpr⟩
      · exact Or.inr ⟨pr, e2, List.mem_cons_of_mem e he2, hr⟩

theorem pickEdge_mem (modules : List GModule) (cyc : List (String × String))
    (e : String × String) (h : pickEdge modules cyc = .ok e) : e ∈ cyc := by
  unfold pickEdge at h
  cases hf : cyc.foldlM (pickStep modules) none with
  | error err =>
    rw [hf] at h
    simp [Bind.bind, Except.bind] at h
  | ok best =>
    rw [hf] at h
    simp only [Bind.bind, Except.bind] at h
    cases best with
    | none => cases h
    | some b =>
      rcases pickFold_mem modules cyc none (some b) hf with hr | ⟨pr, e2, he2, hr⟩
      · cases hr
      · cases h
        cases hr
        exact he2

theorem breakCycles_not_fuelOut (modules : List GModule) :
    ∀ (fuel : Nat) (G : DGraph), G.edges.length < fuel →
      breakCyclesFuel modules fuel G ≠ none := by
  intro fuel
  induction fuel with
  | zero =>
    intro G h
    exact absurd h (Nat.not_lt_zero _)
  | succ f ih =>
    intro G hlen
    unfold breakCyclesFuel
    cases hc : findAnyCycle G with
    | none => simp
    | some cyc =>
      dsimp only
      cases hp : pickEdge modules cyc with
      | error e => simp [hp]
      | ok e =>
        dsimp only
        apply ih
        have he : e ∈ G.edges :=
          findAnyCycle_sound G cyc hc e (pickEdge_mem modules cyc e hp)
        have h1 : (G.edges.erase e).length = G.edges.length - 1 :=
          List.length_erase_of_mem he
        have h2 : 0 < G.edges.length :=
          List.length_pos.mpr (List.ne_nil_of_mem he)
        simp only [h1]
        omega

theorem breakCycles_ok_noCycle (modules : List GModule) :
    ∀ (fuel : Nat) (G G2 : DGraph),
      breakCyclesFuel modules fuel G = some (.ok G2) →
      findAnyCycle G2 = none := by
  intro fuel
  induction fuel with
  | zero =>
    intro G G2 h
    simp [breakCyclesFuel] at h
  | succ f ih =>
    intro G G2 h
    unfold breakCyclesFuel at h
    cases hc : findAnyCycle G with
    | none =>
      rw [hc] at h
      simp only [Option.some.injEq] at h
      cases h
      exact hc
    | some cyc =>
      rw [hc] at h
      dsimp only at h
      cases hp : pickEdge modules cyc with
      | error e =>
        rw [hp] at h
        simp at h
      | ok e =>
        rw [hp] at h
        dsimp only at h
        exact ih _ _ h

theorem breakCycles_sub (modules : List GModule) :
    ∀ (fuel : Nat) (G G2 : DGraph),
      breakCyclesFuel modules fuel G = some (.ok G2) →
      (∀ e ∈ G2.edges, e ∈ G.edges) ∧ G2.nodes = G.nodes := by
  intro fuel
  induction fuel with
  | zero =>
    intro G G2 h
    simp [breakCyclesFuel] at h
  | succ f ih =>
    intro G G2 h
    unfold breakCyclesFuel at h
    cases hc : findAnyCycle G with
    | none =>
      rw [hc] at h
      simp only [Option.some.injEq] at h
      cases h
      exact ⟨fun e he => he, rfl⟩
    | some cyc =>
      rw [hc] at h
      dsimp only at h
      cases hp : pickEdge modules cyc with
      | error e =>
        rw [hp] at h
        simp at h
      | ok e =>
        rw [hp] at h
        dsimp only at h
        rcases ih _ _ h with ⟨hsub, hnodes⟩
        refine ⟨fun e2 he2 => ?_, hnodes⟩
        exact List.mem_of_mem_erase (hsub e2 he2)

end DepGraph

namespace DepGraph

theorem edgePath_sound {es : List (String × String)} {a b : String}
    {p : List (String × String)} (h : EdgePath es a b p) : ∀ x ∈ p, x ∈ es := by
  induction h with
  | single hmem =>
    intro x hx
    rw [List.mem_singleton.mp hx]
    exact hmem
  | cons hmem tail ih =>
    intro x hx
    rcases List.mem_cons.mp hx with h1 | h2
    · rw [h1]
      exact hmem
    · exact ih x h2

theorem edgePath_head {es : List (String × String)} {a b : String}
    {p : List (String × String)} (h : EdgePath es a b p) :
    ∃ x rest, p = (a, x) :: rest ∧ (a, x) ∈ es := by
  cases h with
  | single hmem => exact ⟨b, [], rfl, hmem⟩
  | cons hmem tail => exact ⟨_, _, rfl, hmem⟩

theorem edgePath_suffix {es : List (String × String)} {c b : String}
    {r : List (String × String)} (h : EdgePath es c b r) :
    ∀ e ∈ r, ∃ s, EdgePath es e.1 b (e :: s) ∧ (e :: s).length ≤ r.length := by
  induction h with
  | single hmem =>
    intro e he
    rw [List.mem_singleton.mp he]
    exact ⟨[], EdgePath.single hmem, le_refl _⟩
  | cons hmem tail ih =>
    intro e he
    rcases List.mem_cons.mp he with h1 | h2
    · rw [h1]
      exact ⟨_, EdgePath.cons hmem tail, le_refl _⟩
    · rcases ih e h2 with ⟨s, hs, hl⟩
      exact ⟨s, hs, le_trans hl (by simp)⟩

theorem edgePath_shorten_of_dup {es : List (String × String)} {a b : String}
    {p : List (String × String)} (h : EdgePath es a b p) (hnd : ¬ p.Nodup) :
    ∃ q, EdgePath es a b q ∧ q.length < p.length := by
  induction h with
  | single hmem =>
    exact absurd (List.nodup_singleton _) hnd
  | @cons a2 b2 c2 p2 hmem tail ih =>
    rw [List.nodup_cons] at hnd
    push_neg at hnd
    by_cases hdup : (a2, b2) ∈ p2
    · rcases edgePath_suffix tail (a2, b2) hdup with ⟨s, hs, hl⟩
      refine ⟨(a2, b2) :: s, hs, ?_⟩
      simp only [List.length_cons] at hl ⊢
      omega
    · rcases ih (hnd hdup) with ⟨q, hq, hql⟩
      refine ⟨(a2, b2) :: q, EdgePath.cons hmem hq, ?_⟩
      simp only [List.length_cons]
      omega

theorem edgePath_bounded {es : List (String × String)} {a b : String} :
    ∀ (n : Nat) {p : List (String × String)}, p.length ≤ n →
      EdgePath es a b p → ∃ q, EdgePath es a b q ∧ q.length ≤ es.length := by
  intro n
  induction n with
  | zero =>
    intro p hl h
    rcases edgePath_head h with ⟨x, rest, hp, _⟩
    subst hp
    simp at hl
  | succ n ih =>
    intro p hl h
    by_cases hnd : p.Nodup
    · refine ⟨p, h, ?_⟩
      have hsub := edgePath_sound h
      have h1 : p.toFinset.card = p.length := List.toFinset_card_of_nodup hnd
      have h2 : p.toFinset ⊆ es.toFinset := by
        intro x hx
        exact List.mem_toFinset.mpr (hsub x (List.mem_toFinset.mp hx))
      have h3 := Finset.card_le_card h2
      have h4 := List.toFinset_card_le es
      omega
    · rcases edgePath_shorten_of_dup h hnd with ⟨q, hq, hql⟩
      exact ih (by omega) hq

theorem findPath_complete (es : List (String × String)) {a b : String}
    {p : List (String × String)} (h : EdgePath es a b p) :
    ∀ (fuel : Nat), p.length ≤ fuel → (findPath es fuel a b).isSome := by
  induction h with
  | single hmem =>
    intro fuel hl
    cases fuel with
    | zero => simp at hl
    | succ f =>
      unfold findPath
      rw [if_pos hmem]
      simp
  | cons hmem tail ih =>
    intro fuel hl
    cases fuel with
    | zero => simp at hl
    | succ f =>
      unfold findPath
      split
      · simp
      · rw [List.findSome?_isSome_iff]
        refine ⟨_, List.mem_filter.mpr ⟨hmem, by simp⟩, ?_⟩
        have hih := ih f (by simp only [List.length_cons] at hl; omega)
        simpa using hih

theorem addNode_wf (G : DGraph) (n : String) (h : EdgesWF G) :
    EdgesWF (addNode G n) := by
  intro e he
  rw [addNode_edges] at he
  rcases h e he with ⟨h1, h2⟩
  exact ⟨addNode_nodes_mono _ _ _ h1, addNode_nodes_mono _ _ _ h2⟩

theorem addEdge_edges_cases (G : DGraph) (a b : String) (e : String × String)
    (he : e ∈ (addEdge G a b).edges) : e ∈ G.edges ∨ e = (a, b) := by
  unfold addEdge at he
  dsimp only at he
  split at he
  · exact Or.inl (by simpa [addNode_edges] using he)
  · rcases List.mem_append.mp he with h1 | h1
    · exact Or.inl (by simpa [addNode_edges] using h1)
    · exact Or.inr (List.mem_singleton.mp h1)

theorem addEdge_wf (G : DGraph) (a b : String) (h : EdgesWF G) :
    EdgesWF (addEdge G a b) := by
  intro e he
  rcases addEdge_edges_cases G a b e he with h1 | h1
  · rcases h e h1 with ⟨ha, hb⟩
    exact ⟨addEdge_nodes_mono _ _ _ _ ha, addEdge_nodes_mono _ _ _ _ hb⟩
  · subst h1
    exact ⟨addEdge_fst_mem G a b, addEdge_snd_mem G a b⟩

theorem reqFold_wf (nm : String) (reqs : List String) (G : DGraph)
    (h : EdgesWF G) :
    EdgesWF (reqs.foldl (fun g req => addEdge g nm req) G) := by
  induction reqs generalizing G with
  | nil => exact h
  | cons r rest ih => exact ih _ (addEdge_wf _ _ _ h)

theorem addModuleEdges_wf (G : DGraph) (m : GModule) (h : EdgesWF G) :
    EdgesWF (addModuleEdges G m) := by
  unfold addModuleEdges
  have h1 := reqFold_wf m.name m.required G h
  split
  · exact h1
  · exact addEdge_wf _ _ _ h1

theorem modulesFold_wf (modules : List GModule) (G : DGraph) (h : EdgesWF G) :
    EdgesWF (modules.foldl addModuleEdges G) := by
  induction modules generalizing G with
  | nil => exact h
  | cons m rest ih => exact ih _ (addModuleEdges_wf _ _ h)

theorem adaptbxStep_wf (g : DGraph) (e : String × String) (h : EdgesWF g) :
    EdgesWF (adaptbxStep g e) := by
  unfold adaptbxStep
  dsimp only
  split
  · exact addEdge_wf _ _ _ h
  · exact h

theorem adaptbxFold_wf (lst : List (String × String)) (H : DGraph)
    (h : EdgesWF H) : EdgesWF (lst.foldl adaptbxStep H) := by
  induction lst generalizing H with
  | nil => exact h
  | cons x rest ih => exact ih _ (adaptbxStep_wf _ _ h)

theorem nodesFold_wf (modules : List GModule) (G : DGraph) (h : EdgesWF G) :
    EdgesWF (modules.foldl (fun g m => addNode g m.name) G) := by
  induction modules generalizing G with
  | nil => exact h
  | cons m rest ih => exact ih _ (addNode_wf _ _ h)

theorem buildGraphRaw_wf (modules : List GModule) :
    EdgesWF (buildGraphRaw modules) := by
  unfold buildGraphRaw
  apply adaptbxFold_wf
  apply addEdge_wf
  apply modulesFold_wf
  apply nodesFold_wf
  intro e he
  exact absurd he (List.not_mem_nil e)

theorem acyclic_of_noCycleFound (G : DGraph) (hwf : EdgesWF G)
    (h : findAnyCycle G = none) : Acyclic G := by
  rintro ⟨n, p, hp⟩
  rcases edgePath_bounded p.length (le_refl _) hp with ⟨q, hq, hql⟩
  have hsome := findPath_complete G.edges hq (G.edges.length + 1) (by omega)
  rcases edgePath_head hp with ⟨x, rest, _, hmem⟩
  have hn : n ∈ G.nodes := (hwf (n, x) hmem).1
  unfold findAnyCycle at h
  rw [List.findSome?_eq_none_iff] at h
  rw [h n hn] at hsome
  simp at hsome

end DepGraph

/-- C2: the dependency graph built from the modules' declared requirements
contains, before cycle breaking, the edge (A, B) for every module A
declaring B; the cycle-breaking loop terminates (the edge-count fuel bound
is never exhausted); and any graph the loop returns is acyclic (it admits
no closed edge path). -/
theorem c2_dependency_graph (modules : List DepGraph.GModule) :
    (∀ m ∈ modules, ∀ req ∈ m.required,
        (m.name, req) ∈ (DepGraph.buildGraphRaw modules).edges)
    ∧ DepGraph.breakCyclesFuel modules
        ((DepGraph.buildGraphRaw modules).edges.length + 1)
        (DepGraph.buildGraphRaw modules) ≠ none
    ∧ ∀ G2, DepGraph.buildDependencyGraph modules = some (.ok G2) →
        DepGraph.Acyclic G2 := by
  refine ⟨?_, ?_, ?_⟩
  · intro m hm req hreq
    exact DepGraph.edge_in_raw modules m hm req hreq
  · exact DepGraph.breakCycles_not_fuelOut modules _ _ (by omega)
  · intro G2 h
    unfold DepGraph.buildDependencyGraph at h
    have hwf := DepGraph.buildGraphRaw_wf modules
    have hnc := DepGraph.breakCycles_ok_noCycle modules _ _ _ h
    rcases DepGraph.breakCycles_sub modules _ _ _ h with ⟨hsub, hnodes⟩
    have hwf2 : DepGraph.EdgesWF G2 := by
      intro e he
      rcases hwf e (hsub e he) with ⟨h1, h2⟩
      rw [hnodes]
      exact ⟨h1, h2⟩
    exact DepGraph.acyclic_of_noCycleFound G2 hwf2 hnc

/-- C3 witness: a distribution with one SHARED "lib"-prefixed target
passes post-processing and that target satisfies the prefix invariant. -/
theorem c3_prefix_invariant_witness :
    ReadScons.readDistributionPost
        ⟨[⟨"m", "m", true, [⟨EnvPure.TType.shared, "t", "t", "lib", [], "m"⟩]⟩]⟩
      = .ok ⟨[⟨"m", "m", true,
          [⟨EnvPure.TType.shared, "t", "t", "lib", [], "m"⟩]⟩]⟩ ∧
    ReadScons.prefixTypeOK ⟨EnvPure.TType.shared, "t", "t", "lib", [], "m"⟩
      = true :=
  ⟨by rfl,
    c3_prefix_invariant
      ⟨[⟨"m", "m", true, [⟨EnvPure.TType.shared, "t", "t", "lib", [], "m"⟩]⟩]⟩
      ⟨[⟨"m", "m", true, [⟨EnvPure.TType.shared, "t", "t", "lib", [], "m"⟩]⟩]⟩
      (by rfl)
      ⟨EnvPure.TType.shared, "t", "t", "lib", [], "m"⟩
      (by simp [ReadScons.allTargets])⟩

namespace TbxModel

theorem hasMod_append_of (st : MState) (nm : String) (r0 : ModRec) (n : String)
    (h : hasMod st n = true) :
    hasMod { st with modules := st.modules ++ [(nm, r0)] } n = true := by
  unfold hasMod at h ⊢
  simp only [List.any_append, Bool.or_eq_true]
  exact Or.inl h

theorem hasMod_append_self (st : MState) (nm : String) (r0 : ModRec) :
    hasMod { st with modules := st.modules ++ [(nm, r0)] } nm = true := by
  unfold hasMod
  simp

theorem hasMod_append_elim (st : MState) (nm : String) (r0 : ModRec)
    (n : String)
    (h : hasMod { st with modules := st.modules ++ [(nm, r0)] } n = true) :
    hasMod st n = true ∨ n = nm := by
  unfold hasMod at h
  simp only [List.any_append, Bool.or_eq_true] at h
  rcases h with h | h
  · exact Or.inl h
  · simp at h
    exact Or.inr h.symm

theorem anyKey_mapUpdate (ms : List (String × ModRec)) (a : String)
    (f : ModRec → ModRec) (n : String) :
    ((ms.map fun e => if e.1 = a then (e.1, f e.2) else e).any fun e => e.1 = n)
      = ms.any fun e => e.1 = n := by
  induction ms with
  | nil => rfl
  | cons e rest ih =>
    simp only [List.map_cons, List.any_cons, ih]
    by_cases he : e.1 = a
    · simp [he]
    · simp [he]

theorem hasMod_setMod (st : MState) (a : String) (f : ModRec → ModRec)
    (n : String) : hasMod (setMod st a f) n = hasMod st n := by
  unfold hasMod setMod
  exact anyKey_mapUpdate st.modules a f n

theorem hasMod_addDepEdge (st : MState) (a b n : String) :
    hasMod (addDepEdge st a b) n = hasMod st n := by
  unfold addDepEdge
  rw [hasMod_setMod, hasMod_setMod]

theorem anyKey_filterNe (ms : List (String × ModRec)) (nm n : String)
    (h : ¬ n = nm) :
    ((ms.filter fun e => ¬ e.1 = nm).any fun e => e.1 = n)
      = ms.any fun e => e.1 = n := by
  rw [List.any_filter]
  induction ms with
  | nil => rfl
  | cons e rest ih =>
    simp only [List.any_cons, ih]
    by_cases he : e.1 = n
    · have hnm : ¬ e.1 = nm := fun hc => h (by rw [← he, hc])
      simp [he, hnm]
      exact Or.inl h
    · simp [he]

theorem hasMod_eraseMod_ne (st : MState) (nm n : String) (h : ¬ n = nm) :
    hasMod (eraseMod st nm) n = hasMod st n := by
  unfold hasMod eraseMod
  exact anyKey_filterNe st.modules nm n h

theorem hasMod_eraseMod_self (st : MState) (nm : String) :
    hasMod (eraseMod st nm) nm = false := by
  unfold hasMod eraseMod
  dsimp only
  rw [List.any_eq_false]
  intro e he
  rcases List.mem_filter.mp he with ⟨_, hp⟩
  simp at hp ⊢
  exact hp

theorem stInv_refl (fs : Fs) (st : MState) : StInv fs st st :=
  ⟨fun _ h => h, fun _ h => Or.inl h⟩

theorem stInv_trans (fs : Fs) (st1 st2 st3 : MState) (h1 : StInv fs st1 st2)
    (h2 : StInv fs st2 st3) : StInv fs st1 st3 := by
  refine ⟨fun n h => h2.1 n (h1.1 n h), fun n h => ?_⟩
  rcases h2.2 n h with h3 | h3
  · exact h1.2 n h3
  · exact Or.inr h3

theorem stInv_addDepEdge (fs : Fs) (st : MState) (a b : String) :
    StInv fs st (addDepEdge st a b) := by
  constructor
  · intro n h
    rw [hasMod_addDepEdge]
    exact h
  · intro n h
    rw [hasMod_addDepEdge] at h
    exact Or.inl h

end TbxModel

namespace TbxModel

theorem loadAbsF_ok (fs : Fs)
    (lm : MState → String → (Except LErr LOut) × MState × List String)
    (hlm : LoaderOK fs lm) (reqBy : String) :
    ∀ (ds : List String) (st : MState) (r : Except LErr Unit) (st2 : MState)
      (log : List String),
      loadAbsF lm reqBy st ds = (r, st2, log) →
      StInv fs st st2 ∧ NoKeyU st r ∧ LogOK st st2 log := by
  intro ds
  induction ds with
  | nil =>
    intro st r st2 log h
    unfold loadAbsF at h
    simp only [Prod.mk.injEq] at h
    obtain ⟨rfl, rfl, rfl⟩ := h
    refine ⟨stInv_refl fs st, ?_, ?_⟩
    · intro _ k hcon
      simp at hcon
    · intro n hn
      simp at hn
  | cons dep rest ih =>
    intro st r st2 log h
    unfold loadAbsF at h
    rcases h1 : lm st dep with ⟨r1, st1, log1⟩
    rw [h1] at h
    rcases hlm st dep r1 st1 log1 h1 with ⟨hinv1, hnk1, hlog1⟩
    rcases r1 with e | o
    · dsimp only at h
      simp only [Prod.mk.injEq] at h
      obtain ⟨rfl, rfl, rfl⟩ := h
      refine ⟨hinv1, ?_, hlog1⟩
      intro hlib k hcon
      have he : e = LErr.keyErr k := by
        injection hcon
      exact hnk1 hlib k (by rw [he])
    · rcases o with nm2 | _
      · rcases h2 : loadAbsF lm reqBy (addDepEdge st1 reqBy dep) rest
          with ⟨r3, st3, log3⟩
        dsimp only at h
        rw [h2] at h
        simp only [Prod.mk.injEq] at h
        obtain ⟨rfl, rfl, rfl⟩ := h
        rcases ih (addDepEdge st1 reqBy dep) r3 st3 log3 h2
          with ⟨hinv2, hnk2, hlog2⟩
        have hinvA : StInv fs st1 (addDepEdge st1 reqBy dep) :=
          stInv_addDepEdge fs st1 reqBy dep
        have hinv1A : StInv fs st (addDepEdge st1 reqBy dep) :=
          stInv_trans fs _ _ _ hinv1 hinvA
        refine ⟨stInv_trans fs _ _ _ hinv1A hinv2, ?_, ?_⟩
        · intro hlib k
          exact hnk2 (hinv1A.1 "libtbx" hlib) k
        · intro n hn
          rcases List.mem_append.mp hn with hn1 | hn2
          · rcases hlog1 n hn1 with ⟨hA, hB⟩
            exact ⟨(stInv_trans fs _ _ _ hinvA hinv2).1 n hA, hB⟩
          · rcases hlog2 n hn2 with ⟨hA, hB⟩
            refine ⟨hA, ?_⟩
            by_cases hc : hasMod st n = true
            · have := hinv1A.1 n hc
              rw [this] at hB
              cases hB
            · simpa using hc
      · dsimp only at h
        simp only [Prod.mk.injEq] at h
        obtain ⟨rfl, rfl, rfl⟩ := h
        refine ⟨hinv1, ?_, hlog1⟩
        intro _ k hcon
        simp at hcon

theorem loadOptF_ok (fs : Fs)
    (lm : MState → String → (Except LErr LOut) × MState × List String)
    (hlm : LoaderOK fs lm) (reqBy : String) :
    ∀ (ds : List String) (st : MState) (r : Except LErr Unit) (st2 : MState)
      (log : List String),
      loadOptF lm reqBy st ds = (r, st2, log) →
      StInv fs st st2 ∧ NoKeyU st r ∧ LogOK st st2 log := by
  intro ds
  induction ds with
  | nil =>
    intro st r st2 log h
    unfold loadOptF at h
    simp only [Prod.mk.injEq] at h
    obtain ⟨rfl, rfl, rfl⟩ := h
    refine ⟨stInv_refl fs st, ?_, ?_⟩
    · intro _ k hcon
      simp at hcon
    · intro n hn
      simp at hn
  | cons dep rest ih =>
    intro st r st2 log h
    unfold loadOptF at h
    rcases h1 : lm st dep with ⟨r1, st1, log1⟩
    rw [h1] at h
    rcases hlm st dep r1 st1 log1 h1 with ⟨hinv1, hnk1, hlog1⟩
    have hcont : ∀ (stm : MState), StInv fs st stm → LogOK st stm log1 →
        (match loadOptF lm reqBy stm rest with
          | (r3, st3, log2) => (r3, st3, log1 ++ log2)) = (r, st2, log) →
        StInv fs st st2 ∧ NoKeyU st r ∧ LogOK st st2 log := by
      intro stm hinvm hlogm hm
      rcases h2 : loadOptF lm reqBy stm rest with ⟨r3, st3, log3⟩
      rw [h2] at hm
      simp only [Prod.mk.injEq] at hm
      obtain ⟨rfl, rfl, rfl⟩ := hm
      rcases ih stm r3 st3 log3 h2 with ⟨hinv2, hnk2, hlog2⟩
      refine ⟨stInv_trans fs _ _ _ hinvm hinv2, ?_, ?_⟩
      · intro hlib k
        exact hnk2 (hinvm.1 "libtbx" hlib) k
      · intro n hn
        rcases List.mem_append.mp hn with hn1 | hn2
        · rcases hlogm n hn1 with ⟨hA, hB⟩
          exact ⟨hinv2.1 n hA, hB⟩
        · rcases hlog2 n hn2 with ⟨hA, hB⟩
          refine ⟨hA, ?_⟩
          by_cases hc : hasMod st n = true
          · have := hinvm.1 n hc
            rw [this] at hB
            cases hB
          · simpa using hc
    rcases r1 with e | o
    · rcases e with ⟨a, b⟩ | ⟨k0⟩ | _
      · dsimp only at h
        exact hcont st1 hinv1 hlog1 h
      · dsimp only at h
        simp only [Prod.mk.injEq] at h
        obtain ⟨rfl, rfl, rfl⟩ := h
        refine ⟨hinv1, ?_, hlog1⟩
        intro hlib k hcon
        have he : LErr.keyErr k0 = LErr.keyErr k := by
          injection hcon
        exact hnk1 hlib k (by rw [he])
      · dsimp only at h
        simp only [Prod.mk.injEq] at h
        obtain ⟨rfl, rfl, rfl⟩ := h
        refine ⟨hinv1, ?_, hlog1⟩
        intro _ k hcon
        simp at hcon
    · rcases o with nm2 | _
      · dsimp only at h
        have hinvA : StInv fs st (addDepEdge st1 reqBy dep) :=
          stInv_trans fs _ _ _ hinv1 (stInv_addDepEdge fs st1 reqBy dep)
        have hlogA : LogOK st (addDepEdge st1 reqBy dep) log1 := by
          intro n hn
          rcases hlog1 n hn with ⟨hA, hB⟩
          refine ⟨?_, hB⟩
          rw [hasMod_addDepEdge]
          exact hA
        exact hcont (addDepEdge st1 reqBy dep) hinvA hlogA h
      · dsimp only at h
        exact hcont st1 hinv1 hlog1 h

end TbxModel

namespace TbxModel

theorem loadDepsForF_ok (fs : Fs)
    (lm : MState → String → (Except LErr LOut) × MState × List String)
    (hlm : LoaderOK fs lm) (st : MState) (m : ModRec)
    (r : Except LErr Unit) (st2 : MState) (log : List String)
    (h : loadDepsForF lm st m = (r, st2, log)) :
    StInv fs st st2 ∧ NoKeyU st r ∧ LogOK st st2 log := by
  unfold loadDepsForF at h
  dsimp only at h
  have hcont : ∀ stm, StInv fs st stm →
      (match loadAbsF lm m.name stm (absDeps m) with
        | (.error e, st3, log0) => (.error e, st3, log0)
        | (.ok _, st3, log0) =>
          match loadOptF lm m.name st3 m.optionalMods with
          | (r4, st4, log2) => (r4, st4, log0 ++ log2)) = (r, st2, log) →
      StInv fs st st2 ∧ NoKeyU st r ∧ LogOK st st2 log := by
    intro stm hinvm hm
    rcases h2 : loadAbsF lm m.name stm (absDeps m) with ⟨rA, stA, logA⟩
    rw [h2] at hm
    rcases loadAbsF_ok fs lm hlm m.name (absDeps m) stm rA stA logA h2
      with ⟨hinvA, hnkA, hlogA⟩
    rcases rA with e | u
    · dsimp only at hm
      simp only [Prod.mk.injEq] at hm
      obtain ⟨rfl, rfl, rfl⟩ := hm
      refine ⟨stInv_trans fs _ _ _ hinvm hinvA, ?_, ?_⟩
      · intro hlib k
        exact hnkA (hinvm.1 "libtbx" hlib) k
      · intro n hn
        rcases hlogA n hn with ⟨hA, hB⟩
        refine ⟨hA, ?_⟩
        by_cases hc : hasMod st n = true
        · rw [hinvm.1 n hc] at hB
          cases hB
        · simpa using hc
    · dsimp only at hm
      rcases h3 : loadOptF lm m.name stA m.optionalMods with ⟨rO, stO, logO⟩
      rw [h3] at hm
      simp only [Prod.mk.injEq] at hm
      obtain ⟨rfl, rfl, rfl⟩ := hm
      rcases loadOptF_ok fs lm hlm m.name m.optionalMods stA rO stO logO h3
        with ⟨hinvO, hnkO, hlogO⟩
      have hinvSA : StInv fs st stA := stInv_trans fs _ _ _ hinvm hinvA
      refine ⟨stInv_trans fs _ _ _ hinvSA hinvO, ?_, ?_⟩
      · intro hlib k
        exact hnkO (hinvSA.1 "libtbx" hlib) k
      · intro n hn
        rcases List.mem_append.mp hn with hn1 | hn2
        · rcases hlogA n hn1 with ⟨hA, hB⟩
          refine ⟨hinvO.1 n hA, ?_⟩
          by_cases hc : hasMod st n = true
          · rw [hinvm.1 n hc] at hB
            cases hB
          · simpa using hc
        · rcases hlogO n hn2 with ⟨hA, hB⟩
          refine ⟨hA, ?_⟩
          by_cases hc : hasMod st n = true
          · rw [hinvSA.1 n hc] at hB
            cases hB
          · simpa using hc
  by_cases hname : m.name = "libtbx"
  · rw [if_pos hname] at h
    dsimp only at h
    exact hcont st (stInv_refl fs st) h
  · rw [if_neg hname] at h
    by_cases hlib : hasMod st "libtbx" = true
    · rw [if_pos hlib] at h
      dsimp only at h
      exact hcont (addDepEdge st m.name "libtbx")
        (stInv_addDepEdge fs st m.name "libtbx") h
    · rw [if_neg hlib] at h
      dsimp only at h
      simp only [Prod.mk.injEq] at h
      obtain ⟨rfl, rfl, rfl⟩ := h
      refine ⟨stInv_refl fs st, ?_, ?_⟩
      · intro hl _ _
        exact hlib hl
      · intro n hn
        simp at hn

theorem loadModule_ok (fs : Fs) :
    ∀ fuel : Nat, LoaderOK fs (fun st n => loadModule fs fuel st n) := by
  intro fuel
  induction fuel with
  | zero =>
    intro st name r st2 log h
    simp only [loadModule] at h
    simp only [Prod.mk.injEq] at h
    obtain ⟨rfl, rfl, rfl⟩ := h
    refine ⟨stInv_refl fs st, ?_, ?_⟩
    · intro _ k hcon
      simp at hcon
    · intro n hn
      simp at hn
  | succ fuel ih =>
    intro st name r st2 log h
    simp only [loadModule] at h
    by_cases hc : hasMod st name = true
    · rw [if_pos hc] at h
      simp only [Prod.mk.injEq] at h
      obtain ⟨rfl, rfl, rfl⟩ := h
      refine ⟨stInv_refl fs st, ?_, ?_⟩
      · intro _ k hcon
        simp at hcon
      · intro n hn
        simp at hn
    · rw [if_neg hc] at h
      cases hfs : lookupFs fs name with
      | none =>
        rw [hfs] at h
        dsimp only at h
        simp only [Prod.mk.injEq] at h
        obtain ⟨rfl, rfl, rfl⟩ := h
        refine ⟨stInv_refl fs st, ?_, ?_⟩
        · intro _ k hcon
          simp at hcon
        · intro n hn
          simp at hn
      | some dm =>
        rw [hfs] at h
        dsimp only at h
        rcases h3 : loadDepsForF (fun st2 n2 => loadModule fs fuel st2 n2)
            { st with modules := st.modules ++ [(name, mkModRec name dm st.ignoreMissing)] }
            (mkModRec name dm st.ignoreMissing) with ⟨r3, st3, log3⟩
        rw [h3] at h
        rcases loadDepsForF_ok fs _ ih _ _ r3 st3 log3 h3
          with ⟨hinv13, hnk13, hlog13⟩
        have hname1 : (mkModRec name dm st.ignoreMissing).name = name := rfl
        have hinv01 : StInv fs st
            { st with modules := st.modules ++ [(name, mkModRec name dm st.ignoreMissing)] } := by
          constructor
          · intro n hn
            exact hasMod_append_of st name _ n hn
          · intro n hn
            rcases hasMod_append_elim st name _ n hn with h1 | h1
            · exact Or.inl h1
            · subst h1
              rw [hfs]
              exact Or.inr rfl
        rcases r3 with e | u
        · rcases e with ⟨a, b⟩ | ⟨k0⟩ | _
          · dsimp only at h
            simp only [Prod.mk.injEq] at h
            obtain ⟨rfl, rfl, rfl⟩ := h
            refine ⟨?_, ?_, ?_⟩
            · constructor
              · intro n hn
                have hne : ¬ n = name := by
                  intro hcon
                  rw [hcon] at hn
                  exact hc hn
                rw [hasMod_eraseMod_ne st3 name n hne]
                exact hinv13.1 n (hinv01.1 n hn)
              · intro n hn
                by_cases hne : n = name
                · subst hne
                  rw [hasMod_eraseMod_self] at hn
                  cases hn
                · rw [hasMod_eraseMod_ne st3 name n hne] at hn
                  rcases hinv13.2 n hn with h1 | h1
                  · rcases hasMod_append_elim st name _ n h1 with h2 | h2
                    · exact Or.inl h2
                    · exact absurd h2 hne
                  · exact Or.inr h1
            · intro _ k hcon
              simp at hcon
            · intro n hn
              rcases hlog13 n hn with ⟨hA, hB⟩
              have hne : ¬ n = name := by
                intro hcon
                rw [hcon] at hB
                rw [hasMod_append_self st name _] at hB
                cases hB
              refine ⟨?_, ?_⟩
              · rw [hasMod_eraseMod_ne st3 name n hne]
                exact hA
              · by_cases hcn : hasMod st n = true
                · rw [hasMod_append_of st name _ n hcn] at hB
                  cases hB
                · simpa using hcn
          · dsimp only at h
            simp only [Prod.mk.injEq] at h
            obtain ⟨rfl, rfl, rfl⟩ := h
            refine ⟨stInv_trans fs _ _ _ hinv01 hinv13, ?_, ?_⟩
            · intro hlib k _
              exact hnk13 (hinv01.1 "libtbx" hlib) k0 rfl
            · intro n hn
              rcases hlog13 n hn with ⟨hA, hB⟩
              refine ⟨hA, ?_⟩
              by_cases hcn : hasMod st n = true
              · rw [hasMod_append_of st name _ n hcn] at hB
                cases hB
              · simpa using hcn
          · dsimp only at h
            simp only [Prod.mk.injEq] at h
            obtain ⟨rfl, rfl, rfl⟩ := h
            refine ⟨stInv_trans fs _ _ _ hinv01 hinv13, ?_, ?_⟩
            · intro _ k hcon
              simp at hcon
            · intro n hn
              rcases hlog13 n hn with ⟨hA, hB⟩
              refine ⟨hA, ?_⟩
              by_cases hcn : hasMod st n = true
              · rw [hasMod_append_of st name _ n hcn] at hB
                cases hB
              · simpa using hcn
        · dsimp only at h
          simp only [Prod.mk.injEq] at h
          obtain ⟨rfl, rfl, rfl⟩ := h
          refine ⟨stInv_trans fs _ _ _ hinv01 hinv13, ?_, ?_⟩
          · intro _ k hcon
            simp at hcon
          · intro n hn
            rcases List.mem_append.mp hn with hn1 | hn2
            · rcases hlog13 n hn1 with ⟨hA, hB⟩
              refine ⟨hA, ?_⟩
              by_cases hcn : hasMod st n = true
              · rw [hasMod_append_of st name _ n hcn] at hB
                cases hB
              · simpa using hcn
            · rw [List.mem_singleton.mp hn2]
              refine ⟨hinv13.1 name (hasMod_append_self st name _), ?_⟩
              simpa using hc

end TbxModel

namespace TbxModel

theorem length_filter_mono {α : Type} (p q : α → Bool) :
    ∀ l : List α, (∀ a ∈ l, p a = true → q a = true) →
      (l.filter p).length ≤ (l.filter q).length := by
  intro l
  induction l with
  | nil => simp
  | cons x rest ih =>
    intro h
    have hrest := ih fun a ha => h a (List.mem_cons_of_mem x ha)
    by_cases hp : p x = true
    · have hq := h x (List.mem_cons_self x rest) hp
      simp only [List.filter_cons, hp, hq, if_true, List.length_cons]
      exact Nat.succ_le_succ hrest
    · by_cases hq : q x = true
      · simp only [List.filter_cons, hp, hq, if_true, if_false,
          List.length_cons]
        exact Nat.le_succ_of_le hrest
      · simp only [List.filter_cons, hp, hq, if_false]
        exact hrest

theorem length_filter_lt {α : Type} (p q : α → Bool) (a0 : α)
    (hq0 : q a0 = true) (hp0 : p a0 = false) :
    ∀ l : List α, (∀ a ∈ l, p a = true → q a = true) → a0 ∈ l →
      (l.filter p).length < (l.filter q).length := by
  intro l
  induction l with
  | nil =>
    intro _ ha0
    cases ha0
  | cons x rest ih =>
    intro h ha0
    have hrest : ∀ a ∈ rest, p a = true → q a = true :=
      fun a ha => h a (List.mem_cons_of_mem x ha)
    by_cases hp : p x = true
    · have hq := h x (List.mem_cons_self x rest) hp
      have hx0 : ¬ x = a0 := by
        intro hcon
        rw [hcon, hp0] at hp
        cases hp
      have ha0r : a0 ∈ rest := by
        rcases List.mem_cons.mp ha0 with h1 | h1
        · exact absurd h1.symm hx0
        · exact h1
      simp only [List.filter_cons, hp, hq, if_true, List.length_cons]
      exact Nat.succ_lt_succ (ih hrest ha0r)
    · by_cases hq : q x = true
      · simp only [List.filter_cons, hp, hq, if_true, if_false,
          List.length_cons]
        exact Nat.lt_succ_of_le (length_filter_mono p q rest hrest)
      · have hx0 : ¬ x = a0 := by
          intro hcon
          rw [hcon, hq0] at hq
          exact hq rfl
        have ha0r : a0 ∈ rest := by
          rcases List.mem_cons.mp ha0 with h1 | h1
          · exact absurd h1.symm hx0
          · exact h1
        simp only [List.filter_cons, hp, hq, if_false]
        exact ih hrest ha0r

theorem locatableMissing_le (fs : Fs) (st st2 : MState)
    (hmono : ∀ n, hasMod st n = true → hasMod st2 n = true) :
    (locatableMissing fs st2).length ≤ (locatableMissing fs st).length := by
  apply length_filter_mono
  intro a _ hp
  rw [decide_eq_true_eq] at hp
  rw [decide_eq_true_eq]
  intro hcn
  exact hp (hmono a hcn)

theorem locatableMissing_addDepEdge (fs : Fs) (st : MState) (a b : String) :
    locatableMissing fs (addDepEdge st a b) = locatableMissing fs st := by
  unfold locatableMissing
  apply List.filter_congr
  intro x _
  rw [hasMod_addDepEdge]

theorem locatableMissing_insert_lt (fs : Fs) (st : MState) (name : String)
    (rec0 : ModRec) (dm : DiskModule) (hfs : lookupFs fs name = some dm)
    (hnm : hasMod st name = false) :
    (locatableMissing fs
        { st with modules := st.modules ++ [(name, rec0)] }).length
      < (locatableMissing fs st).length := by
  have hmem : name ∈ fs.map Prod.fst := by
    unfold lookupFs at hfs
    rcases Option.map_eq_some'.mp hfs with ⟨e, he, _⟩
    have h1 := List.find?_some he
    have h2 := List.mem_of_find?_eq_some he
    rw [decide_eq_true_eq] at h1
    exact List.mem_map.mpr ⟨e, h2, h1⟩
  apply length_filter_lt _ _ name
  · rw [decide_eq_true_eq]
    simp [hnm]
  · rw [decide_eq_false_iff_not]
    simp [hasMod_append_self]
  · intro a _ hp
    rw [decide_eq_true_eq] at hp
    rw [decide_eq_true_eq]
    intro hcn
    exact hp (hasMod_append_of st name rec0 a hcn)
  · exact hmem

theorem loadAbsF_noFuel (fs : Fs) (k : Nat)
    (lm : MState → String → (Except LErr LOut) × MState × List String)
    (hlm : LoaderOK fs lm)
    (hnf : ∀ st name, (locatableMissing fs st).length < k →
        (lm st name).1 ≠ Except.error LErr.fuelOut) (reqBy : String) :
    ∀ (ds : List String) (st : MState),
      (locatableMissing fs st).length < k →
      ∀ r st2 log, loadAbsF lm reqBy st ds = (r, st2, log) →
        r ≠ Except.error LErr.fuelOut := by
  intro ds
  induction ds with
  | nil =>
    intro st _ r st2 log h
    unfold loadAbsF at h
    simp only [Prod.mk.injEq] at h
    obtain ⟨rfl, rfl, rfl⟩ := h
    simp
  | cons dep rest ih =>
    intro st hk r st2 log h
    unfold loadAbsF at h
    rcases h1 : lm st dep with ⟨r1, st1, log1⟩
    rw [h1] at h
    have hr1 : r1 ≠ Except.error LErr.fuelOut := by
      have := hnf st dep hk
      rw [h1] at this
      exact this
    rcases hlm st dep r1 st1 log1 h1 with ⟨hinv1, -, -⟩
    rcases r1 with e | o
    · dsimp only at h
      simp only [Prod.mk.injEq] at h
      obtain ⟨rfl, rfl, rfl⟩ := h
      intro hcon
      apply hr1
      have he : e = LErr.fuelOut := by
        injection hcon
      rw [he]
    · rcases o with nm2 | _
      · rcases h2 : loadAbsF lm reqBy (addDepEdge st1 reqBy dep) rest
          with ⟨r3, st3, log3⟩
        dsimp only at h
        rw [h2] at h
        simp only [Prod.mk.injEq] at h
        obtain ⟨rfl, rfl, rfl⟩ := h
        refine ih (addDepEdge st1 reqBy dep) ?_ r3 st3 log3 h2
        have h4 : (locatableMissing fs (addDepEdge st1 reqBy dep)).length
            = (locatableMissing fs st1).length := by
          rw [locatableMissing_addDepEdge]
        have h5 := locatableMissing_le fs st st1 hinv1.1
        omega
      · dsimp only at h
        simp only [Prod.mk.injEq] at h
        obtain ⟨rfl, rfl, rfl⟩ := h
        simp

theorem loadOptF_noFuel (fs : Fs) (k : Nat)
    (lm : MState → String → (Except LErr LOut) × MState × List String)
    (hlm : LoaderOK fs lm)
    (hnf : ∀ st name, (locatableMissing fs st).length < k →
        (lm st name).1 ≠ Except.error LErr.fuelOut) (reqBy : String) :
    ∀ (ds : List String) (st : MState),
      (locatableMissing fs st).length < k →
      ∀ r st2 log, loadOptF lm reqBy st ds = (r, st2, log) →
        r ≠ Except.error LErr.fuelOut := by
  intro ds
  induction ds with
  | nil =>
    intro st _ r st2 log h
    unfold loadOptF at h
    simp only [Prod.mk.injEq] at h
    obtain ⟨rfl, rfl, rfl⟩ := h
    simp
  | cons dep rest ih =>
    intro st hk r st2 log h
    unfold loadOptF at h
    rcases h1 : lm st dep with ⟨r1, st1, log1⟩
    rw [h1] at h
    have hr1 : r1 ≠ Except.error LErr.fuelOut := by
      have := hnf st dep hk
      rw [h1] at this
      exact this
    rcases hlm st dep r1 st1 log1 h1 with ⟨hinv1, -, -⟩
    have hk1 : (locatableMissing fs st1).length < k := by
      have h5 := locatableMissing_le fs st st1 hinv1.1
      omega
    have hcont : ∀ stm,
        (locatableMissing fs stm).length < k →
        (match loadOptF lm reqBy stm rest with
          | (r3, st3, log2) => (r3, st3, log1 ++ log2)) = (r, st2, log) →
        r ≠ Except.error LErr.fuelOut := by
      intro stm hkm hm
      rcases h2 : loadOptF lm reqBy stm rest with ⟨r3, st3, log3⟩
      rw [h2] at hm
      simp only [Prod.mk.injEq] at hm
      obtain ⟨rfl, rfl, rfl⟩ := hm
      exact ih stm hkm r3 st3 log3 h2
    rcases r1 with e | o
    · rcases e with ⟨a, b⟩ | ⟨k0⟩ | _
      · dsimp only at h
        exact hcont st1 hk1 h
      · dsimp only at h
        simp only [Prod.mk.injEq] at h
        obtain ⟨rfl, rfl, rfl⟩ := h
        simp
      · exact absurd rfl hr1
    · rcases o with nm2 | _
      · dsimp only at h
        refine hcont (addDepEdge st1 reqBy dep) ?_ h
        rw [show locatableMissing fs (addDepEdge st1 reqBy dep)
            = locatableMissing fs st1 from locatableMissing_addDepEdge fs st1 reqBy dep]
        exact hk1
      · dsimp only at h
        exact hcont st1 hk1 h

theorem loadDepsForF_noFuel (fs : Fs) (k : Nat)
    (lm : MState → String → (Except LErr LOut) × MState × List String)
    (hlm : LoaderOK fs lm)
    (hnf : ∀ st name, (locatableMissing fs st).length < k →
        (lm st name).1 ≠ Except.error LErr.fuelOut)
    (st : MState) (m : ModRec)
    (hk : (locatableMissing fs st).length < k)
    (r : Except LErr Unit) (st2 : MState) (log : List String)
    (h : loadDepsForF lm st m = (r, st2, log)) :
    r ≠ Except.error LErr.fuelOut := by
  unfold loadDepsForF at h
  dsimp only at h
  have hcont : ∀ stm, (locatableMissing fs stm).length < k →
      (match loadAbsF lm m.name stm (absDeps m) with
        | (.error e, st3, log0) => (.error e, st3, log0)
        | (.ok _, st3, log0) =>
          match loadOptF lm m.name st3 m.optionalMods with
          | (r4, st4, log2) => (r4, st4, log0 ++ log2)) = (r, st2, log) →
      r ≠ Except.error LErr.fuelOut := by
    intro stm hkm hm
    rcases h2 : loadAbsF lm m.name stm (absDeps m) with ⟨rA, stA, logA⟩
    rw [h2] at hm
    have hrA := loadAbsF_noFuel fs k lm hlm hnf m.name (absDeps m) stm hkm
      rA stA logA h2
    rcases loadAbsF_ok fs lm hlm m.name (absDeps m) stm rA stA logA h2
      with ⟨hinvA, -, -⟩
    rcases rA with e | u
    · dsimp only at hm
      simp only [Prod.mk.injEq] at hm
      obtain ⟨rfl, rfl, rfl⟩ := hm
      exact hrA
    · dsimp only at hm
      rcases h3 : loadOptF lm m.name stA m.optionalMods with ⟨rO, stO, logO⟩
      rw [h3] at hm
      simp only [Prod.mk.injEq] at hm
      obtain ⟨rfl, rfl, rfl⟩ := hm
      refine loadOptF_noFuel fs k lm hlm hnf m.name m.optionalMods stA ?_
        rO stO logO h3
      have h5 := locatableMissing_le fs stm stA hinvA.1
      omega
  by_cases hname : m.name = "libtbx"
  · rw [if_pos hname] at h
    dsimp only at h
    exact hcont st hk h
  · rw [if_neg hname] at h
    by_cases hlib : hasMod st "libtbx" = true
    · rw [if_pos hlib] at h
      dsimp only at h
      refine hcont (addDepEdge st m.name "libtbx") ?_ h
      rw [locatableMissing_addDepEdge]
      exact hk
    · rw [if_neg hlib] at h
      dsimp only at h
      simp only [Prod.mk.injEq] at h
      obtain ⟨rfl, rfl, rfl⟩ := h
      simp

theorem loadModule_noFuel (fs : Fs) :
    ∀ (fuel : Nat) (st : MState) (name : String),
      (locatableMissing fs st).length < fuel →
      (loadModule fs fuel st name).1 ≠ Except.error LErr.fuelOut := by
  intro fuel
  induction fuel with
  | zero =>
    intro st name hk
    exact absurd hk (Nat.not_lt_zero _)
  | succ fuel ih =>
    intro st name hk
    simp only [loadModule]
    by_cases hc : hasMod st name = true
    · rw [if_pos hc]
      simp
    · rw [if_neg hc]
      cases hfs : lookupFs fs name with
      | none => simp
      | some dm =>
        dsimp only
        rcases h3 : loadDepsForF (fun st2 n2 => loadModule fs fuel st2 n2)
            { st with modules := st.modules ++ [(name, mkModRec name dm st.ignoreMissing)] }
            (mkModRec name dm st.ignoreMissing) with ⟨r3, st3, log3⟩
        have hlt := locatableMissing_insert_lt fs st name
          (mkModRec name dm st.ignoreMissing) dm hfs (by simpa using hc)
        have hr3 : r3 ≠ Except.error LErr.fuelOut := by
          refine loadDepsForF_noFuel fs fuel _ (loadModule_ok fs fuel)
            (fun st2 n2 hk2 => ih st2 n2 hk2) _ _ ?_ r3 st3 log3 h3
          omega
        rcases r3 with e | u
        · rcases e with ⟨a, b⟩ | ⟨k0⟩ | _
          · simp
          · simp
          · exact absurd rfl hr3
        · simp

end TbxModel

namespace TbxModel

theorem loadModule_missing_not_found (fs : Fs) (fuel : Nat) (st : MState)
    (d : String) (hdm : hasMod st d = false) (hdfs : lookupFs fs d = none) :
    ∀ nm2, (loadModule fs fuel st d).1 ≠ .ok (LOut.found nm2) := by
  intro nm2
  cases fuel with
  | zero => simp [loadModule]
  | succ fuel =>
    simp only [loadModule]
    rw [if_neg (by simp [hdm]), hdfs]
    simp

theorem loadAbsF_missing_fails (fs : Fs)
    (lm : MState → String → (Except LErr LOut) × MState × List String)
    (hlm : LoaderOK fs lm) (reqBy d : String)
    (hdfs : lookupFs fs d = none)
    (hmiss : ∀ s2, hasMod s2 d = false →
        ∀ nm2, (lm s2 d).1 ≠ .ok (LOut.found nm2)) :
    ∀ (ds : List String) (st : MState), d ∈ ds → hasMod st d = false →
      ∀ r st2 log, loadAbsF lm reqBy st ds = (r, st2, log) →
        ∃ e, r = .error e := by
  intro ds
  induction ds with
  | nil =>
    intro st hd
    cases hd
  | cons dep rest ih =>
    intro st hd hdm r st2 log h
    unfold loadAbsF at h
    rcases h1 : lm st dep with ⟨r1, st1, log1⟩
    rw [h1] at h
    rcases hlm st dep r1 st1 log1 h1 with ⟨hinv1, -, -⟩
    rcases r1 with e | o
    · dsimp only at h
      simp only [Prod.mk.injEq] at h
      obtain ⟨rfl, rfl, rfl⟩ := h
      exact ⟨e, rfl⟩
    · rcases o with nm2 | _
      · have hdepd : ¬ dep = d := by
          intro hcon
          subst hcon
          exact hmiss st hdm nm2 (by rw [h1])
        have hd2 : d ∈ rest := by
          rcases List.mem_cons.mp hd with h2 | h2
          · exact absurd h2.symm hdepd
          · exact h2
        have hdm2 : hasMod (addDepEdge st1 reqBy dep) d = false := by
          rw [hasMod_addDepEdge]
          by_cases hcd : hasMod st1 d = true
          · rcases hinv1.2 d hcd with h2 | h2
            · rw [h2] at hdm
              cases hdm
            · rw [hdfs] at h2
              cases h2
          · simpa using hcd
        rcases h2 : loadAbsF lm reqBy (addDepEdge st1 reqBy dep) rest
          with ⟨r3, st3, log3⟩
        dsimp only at h
        rw [h2] at h
        simp only [Prod.mk.injEq] at h
        obtain ⟨rfl, rfl, rfl⟩ := h
        exact ih (addDepEdge st1 reqBy dep) hd2 hdm2 r3 st3 log3 h2
      · dsimp only at h
        simp only [Prod.mk.injEq] at h
        obtain ⟨rfl, rfl, rfl⟩ := h
        exact ⟨LErr.depErr dep reqBy, rfl⟩

theorem loadDepsForF_abs_fails (fs : Fs)
    (lm : MState → String → (Except LErr LOut) × MState × List String)
    (hlm : LoaderOK fs lm) (st : MState) (m : ModRec) (d : String)
    (hd : d ∈ absDeps m) (hdfs : lookupFs fs d = none)
    (hmiss : ∀ s2, hasMod s2 d = false →
        ∀ nm2, (lm s2 d).1 ≠ .ok (LOut.found nm2))
    (hdm : hasMod st d = false)
    (r : Except LErr Unit) (st2 : MState) (log : List String)
    (h : loadDepsForF lm st m = (r, st2, log)) :
    ∃ e, r = .error e := by
  unfold loadDepsForF at h
  dsimp only at h
  have hcont : ∀ stm, hasMod stm d = false →
      (match loadAbsF lm m.name stm (absDeps m) with
        | (.error e, st3, log0) => (.error e, st3, log0)
        | (.ok _, st3, log0) =>
          match loadOptF lm m.name st3 m.optionalMods with
          | (r4, st4, log2) => (r4, st4, log0 ++ log2)) = (r, st2, log) →
      ∃ e, r = .error e := by
    intro stm hdmm hm
    rcases h2 : loadAbsF lm m.name stm (absDeps m) with ⟨rA, stA, logA⟩
    rw [h2] at hm
    rcases loadAbsF_missing_fails fs lm hlm m.name d hdfs hmiss (absDeps m)
      stm hd hdmm rA stA logA h2 with ⟨e, rfl⟩
    dsimp only at hm
    simp only [Prod.mk.injEq] at hm
    obtain ⟨rfl, rfl, rfl⟩ := hm
    exact ⟨e, rfl⟩
  by_cases hname : m.name = "libtbx"
  · rw [if_pos hname] at h
    dsimp only at h
    exact hcont st hdm h
  · rw [if_neg hname] at h
    by_cases hlib : hasMod st "libtbx" = true
    · rw [if_pos hlib] at h
      dsimp only at h
      refine hcont (addDepEdge st m.name "libtbx") ?_ h
      rw [hasMod_addDepEdge]
      exact hdm
    · rw [if_neg hlib] at h
      dsimp only at h
      simp only [Prod.mk.injEq] at h
      obtain ⟨rfl, rfl, rfl⟩ := h
      exact ⟨LErr.keyErr "libtbx", rfl⟩

end TbxModel

/-- C5: requesting a module whose manifest names a required (build or use)
dependency that cannot be located makes `load_module` raise
`DependencyError`, and afterwards the requesting module is not present in
the distribution's modules mapping (the registration is rolled back).
The fuel bound is the recursion-depth budget; any budget above the number
of locatable unloaded modules suffices. -/
theorem c5_load_module_rollback (fs : TbxModel.Fs) (st : TbxModel.MState)
    (name : String) (dm : TbxModel.DiskModule) (fuel : Nat) (d : String)
    (hnm : TbxModel.hasMod st name = false)
    (hfs : TbxModel.lookupFs fs name = some dm)
    (hlib : TbxModel.hasMod st "libtbx" = true)
    (hd : d ∈ TbxModel.absDeps (TbxModel.mkModRec name dm st.ignoreMissing))
    (hdfs : TbxModel.lookupFs fs d = none)
    (hdm : TbxModel.hasMod st d = false)
    (hfuel : (TbxModel.locatableMissing fs st).length < fuel + 1) :
    ∃ a b st2 log,
      TbxModel.loadModule fs (fuel + 1) st name
          = (.error (TbxModel.LErr.depErr a b), st2, log)
        ∧ TbxModel.hasMod st2 name = false := by
  rcases h3 : TbxModel.loadDepsForF
      (fun st2 n2 => TbxModel.loadModule fs fuel st2 n2)
      { st with modules :=
          st.modules ++ [(name, TbxModel.mkModRec name dm st.ignoreMissing)] }
      (TbxModel.mkModRec name dm st.ignoreMissing) with ⟨r3, st3, log3⟩
  have hdm1 : TbxModel.hasMod
      { st with modules :=
          st.modules ++ [(name, TbxModel.mkModRec name dm st.ignoreMissing)] }
      d = false := by
    have hne : ¬ d = name := by
      intro hcon
      rw [hcon, hfs] at hdfs
      cases hdfs
    by_cases hcd : TbxModel.hasMod
        { st with modules :=
            st.modules ++ [(name, TbxModel.mkModRec name dm st.ignoreMissing)] }
        d = true
    · rcases TbxModel.hasMod_append_elim st name _ d hcd with h1 | h1
      · rw [h1] at hdm
        cases hdm
      · exact absurd h1 hne
    · simpa using hcd
  have hmiss : ∀ s2, TbxModel.hasMod s2 d = false →
      ∀ nm2, ((fun st2 n2 => TbxModel.loadModule fs fuel st2 n2) s2 d).1
        ≠ .ok (TbxModel.LOut.found nm2) := by
    intro s2 hs2 nm2
    exact TbxModel.loadModule_missing_not_found fs fuel s2 d hs2 hdfs nm2
  rcases TbxModel.loadDepsForF_abs_fails fs _ (TbxModel.loadModule_ok fs fuel)
    _ _ d hd hdfs hmiss hdm1 r3 st3 log3 h3 with ⟨e, rfl⟩
  have hlib1 : TbxModel.hasMod
      { st with modules :=
          st.modules ++ [(name, TbxModel.mkModRec name dm st.ignoreMissing)] }
      "libtbx" = true :=
    TbxModel.hasMod_append_of st name _ "libtbx" hlib
  rcases TbxModel.loadDepsForF_ok fs _ (TbxModel.loadModule_ok fs fuel)
    _ _ _ _ _ h3 with ⟨-, hnk, -⟩
  have hnf : (Except.error e : Except TbxModel.LErr Unit)
      ≠ .error TbxModel.LErr.fuelOut := by
    refine TbxModel.loadDepsForF_noFuel fs fuel _ (TbxModel.loadModule_ok fs fuel)
      (fun s2 n2 hk2 => TbxModel.loadModule_noFuel fs fuel s2 n2 hk2)
      _ _ ?_ _ _ _ h3
    have := TbxModel.locatableMissing_insert_lt fs st name
      (TbxModel.mkModRec name dm st.ignoreMissing) dm hfs hnm
    omega
  rcases e with ⟨a, b⟩ | ⟨k0⟩ | _
  · refine ⟨a, b, TbxModel.eraseMod st3 name, log3, ?_, ?_⟩
    · simp only [TbxModel.loadModule]
      rw [if_neg (by simp [hnm]), hfs]
      dsimp only
      rw [h3]
    · exact TbxModel.hasMod_eraseMod_self st3 name
  · exact ((hnk hlib1 k0) rfl).elim
  · exact (hnf rfl).elim

/-- C5 witness: a distribution with libtbx loaded and a module `M` whose
config requires the absent `bad_dep`: loading `M` raises `DependencyError`
and `M` is not registered afterwards. -/
theorem c5_load_module_rollback_witness :
    ∃ a b st2 log,
      TbxModel.loadModule
          [("libtbx", ⟨"libtbx", [], [], []⟩),
           ("M", ⟨"cctbx_project/M", ["bad_dep"], [], []⟩)] 2
          ⟨[], [("libtbx",
            TbxModel.mkModRec "libtbx" ⟨"libtbx", [], [], []⟩ [])]⟩ "M"
          = (.error (TbxModel.LErr.depErr a b), st2, log)
        ∧ TbxModel.hasMod st2 "M" = false :=
  c5_load_module_rollback
    [("libtbx", ⟨"libtbx", [], [], []⟩),
     ("M", ⟨"cctbx_project/M", ["bad_dep"], [], []⟩)]
    ⟨[], [("libtbx", TbxModel.mkModRec "libtbx" ⟨"libtbx", [], [], []⟩ [])]⟩
    "M" ⟨"cctbx_project/M", ["bad_dep"], [], []⟩ 1 "bad_dep"
    rfl rfl rfl (by decide) rfl rfl (by decide)

/-- C10: when `load_module` fails with `DependencyError`, only the
requested module itself is rolled back: it is absent afterwards, while
every module whose load completed during the failed attempt (the ghost
completion log) is still present, and every module loaded before the call
remains present. -/
theorem c10_rollback_not_transitive (fs : TbxModel.Fs) (fuel : Nat)
    (st : TbxModel.MState) (name a b : String) (st2 : TbxModel.MState)
    (log : List String)
    (h : TbxModel.loadModule fs fuel st name
        = (.error (TbxModel.LErr.depErr a b), st2, log)) :
    TbxModel.hasMod st2 name = false
      ∧ (∀ n ∈ log, TbxModel.hasMod st2 n = true)
      ∧ ∀ n, TbxModel.hasMod st n = true → TbxModel.hasMod st2 n = true := by
  have hok := TbxModel.loadModule_ok fs fuel st name _ st2 log h
  refine ⟨?_, fun n hn => (hok.2.2 n hn).1, fun n hn => hok.1.1 n hn⟩
  cases fuel with
  | zero =>
    simp only [TbxModel.loadModule] at h
    simp at h
  | succ fuel =>
    simp only [TbxModel.loadModule] at h
    by_cases hc : TbxModel.hasMod st name = true
    · rw [if_pos hc] at h
      simp at h
    · rw [if_neg hc] at h
      cases hfs : TbxModel.lookupFs fs name with
      | none =>
        rw [hfs] at h
        simp at h
      | some dm =>
        rw [hfs] at h
        dsimp only at h
        rcases h3 : TbxModel.loadDepsForF
            (fun st2 n2 => TbxModel.loadModule fs fuel st2 n2)
            { st with modules :=
                st.modules ++ [(name, TbxModel.mkModRec name dm st.ignoreMissing)] }
            (TbxModel.mkModRec name dm st.ignoreMissing) with ⟨r3, st3, log3⟩
        rw [h3] at h
        rcases r3 with e | u
        · rcases e with ⟨a2, b2⟩ | ⟨k0⟩ | _
          · dsimp only at h
            simp only [Prod.mk.injEq] at h
            obtain ⟨-, h2, -⟩ := h
            rw [← h2]
            exact TbxModel.hasMod_eraseMod_self st3 name
          · dsimp only at h
            simp at h
          · dsimp only at h
            simp at h
        · dsimp only at h
          simp at h

/-- C10 witness: `M` requires `D` (present) and `E` (absent); loading `M`
fails, `M` is rolled back, but `D` — loaded during the failed attempt —
remains in the modules mapping, as does the pre-existing libtbx. -/
theorem c10_rollback_not_transitive_witness :
    TbxModel.hasMod
        (TbxModel.loadModule
          [("libtbx", ⟨"libtbx", [], [], []⟩),
           ("M", ⟨"M", ["D", "E"], [], []⟩),
           ("D", ⟨"D", [], [], []⟩)] 3
          ⟨[], [("libtbx",
            TbxModel.mkModRec "libtbx" ⟨"libtbx", [], [], []⟩ [])]⟩ "M").2.1
        "M" = false
      ∧ (∀ n ∈ (TbxModel.loadModule
          [("libtbx", ⟨"libtbx", [], [], []⟩),
           ("M", ⟨"M", ["D", "E"], [], []⟩),
           ("D", ⟨"D", [], [], []⟩)] 3
          ⟨[], [("libtbx",
            TbxModel.mkModRec "libtbx" ⟨"libtbx", [], [], []⟩ [])]⟩ "M").2.2,
          TbxModel.hasMod
            (TbxModel.loadModule
              [("libtbx", ⟨"libtbx", [], [], []⟩),
               ("M", ⟨"M", ["D", "E"], [], []⟩),
               ("D", ⟨"D", [], [], []⟩)] 3
              ⟨[], [("libtbx",
                TbxModel.mkModRec "libtbx" ⟨"libtbx", [], [], []⟩ [])]⟩ "M").2.1
            n = true)
      ∧ ∀ n, TbxModel.hasMod
            ⟨[], [("libtbx",
              TbxModel.mkModRec "libtbx" ⟨"libtbx", [], [], []⟩ [])]⟩ n = true →
          TbxModel.hasMod
            (TbxModel.loadModule
              [("libtbx", ⟨"libtbx", [], [], []⟩),
               ("M", ⟨"M", ["D", "E"], [], []⟩),
               ("D", ⟨"D", [], [], []⟩)] 3
              ⟨[], [("libtbx",
                TbxModel.mkModRec "libtbx" ⟨"libtbx", [], [], []⟩ [])]⟩ "M").2.1
            n = true :=
  c10_rollback_not_transitive
    [("libtbx", ⟨"libtbx", [], [], []⟩),
     ("M", ⟨"M", ["D", "E"], [], []⟩),
     ("D", ⟨"D", [], [], []⟩)] 3
    ⟨[], [("libtbx", TbxModel.mkModRec "libtbx" ⟨"libtbx", [], [], []⟩ [])]⟩
    "M" "E" "M" _ _ (by rfl)

namespace EnvHeap

theorem hExtends_refl (h : Heap) : HExtends h h :=
  ⟨[], by simp⟩

theorem hExtends_trans {h1 h2 h3 : Heap} (a : HExtends h1 h2) (b : HExtends h2 h3) :
    HExtends h1 h3 := by
  obtain ⟨t1, ht1⟩ := a
  obtain ⟨t2, ht2⟩ := b
  exact ⟨t1 ++ t2, by rw [ht2, ht1, List.append_assoc]⟩

theorem hExtends_size_le {h1 h2 : Heap} (a : HExtends h1 h2) : h1.size ≤ h2.size := by
  obtain ⟨t, ht⟩ := a
  simp [Heap.size, ht]

theorem hExtends_getCell {h1 h2 : Heap} (a : HExtends h1 h2) (x : Addr)
    (hx : x < h1.size) : h2.getCell x = h1.getCell x := by
  obtain ⟨t, ht⟩ := a
  simp only [Heap.getCell, ht]
  exact List.getElem?_append_left hx

theorem getCell_none_of_ge (h : Heap) (x : Addr) (hx : h.size ≤ x) :
    h.getCell x = none := by
  simp only [Heap.getCell]
  exact List.getElem?_eq_none hx

theorem getCell_lt_of_some (h : Heap) (x : Addr) (cell : List HVal)
    (hx : h.getCell x = some cell) : x < h.size := by
  by_contra hc
  rw [getCell_none_of_ge h x (Nat.le_of_not_lt hc)] at hx
  exact Option.noConfusion hx

theorem getCell_alloc_self (h : Heap) (vs : List HVal) :
    (h.alloc vs).1.getCell (h.alloc vs).2 = some vs := by
  simp only [Heap.alloc, Heap.getCell]
  exact List.getElem?_concat_length h.cells vs

theorem getCell_set_ne (h : Heap) (b : Addr) (vs : List HVal) (x : Addr)
    (hx : x ≠ b) : (h.setCell b vs).getCell x = h.getCell x := by
  simp only [Heap.setCell, Heap.getCell]
  exact List.getElem?_set_ne (fun hb => hx hb.symm)

theorem alloc_extends (h : Heap) (vs : List HVal) : HExtends h (h.alloc vs).1 :=
  ⟨[vs], rfl⟩

theorem valInRegion_mono {P Q : Addr → Prop} (hpq : ∀ a, P a → Q a) :
    ∀ v : HVal, ValInRegion P v → ValInRegion Q v := by
  intro v hv
  cases v with
  | str s => trivial
  | ref a => exact hpq a hv

theorem readValsF_congr (f g : HVal → Option PVal) :
    ∀ l : List HVal, (∀ v ∈ l, f v = g v) → readValsF f l = readValsF g l := by
  intro l
  induction l with
  | nil => intro _; rfl
  | cons v rest ih =>
    intro hfg
    simp only [readValsF]
    rw [hfg v (List.mem_cons_self _ _),
      ih (fun w hw => hfg w (List.mem_cons_of_mem _ hw))]

theorem readVal_frame (hA hB : Heap) (P : Addr → Prop)
    (hcl : RegionClosed hA P) (hag : AgreeOn hA hB P) :
    ∀ (fuel : Nat) (v : HVal), ValInRegion P v →
      readVal hB fuel v = readVal hA fuel v := by
  intro fuel
  induction fuel with
  | zero =>
    intro v hv
    cases v with
    | str s => rfl
    | ref a => rfl
  | succ n ih =>
    intro v hv
    cases v with
    | str s => rfl
    | ref a =>
      have ha : P a := hv
      have hgc : hB.getCell a = hA.getCell a := (hag a ha).symm
      simp only [readVal, hgc]
      cases hc : hA.getCell a with
      | none => rfl
      | some cell =>
        have hcong : readValsF (fun v => readVal hB n v) cell
            = readValsF (fun v => readVal hA n v) cell := by
          apply readValsF_congr
          intro w hw
          exact ih w (hcl a ha cell hc w hw)
        dsimp only
        rw [hcong]

theorem readEnv_frame (hA hB : Heap) (P : Addr → Prop)
    (hcl : RegionClosed hA P) (hag : AgreeOn hA hB P) (fuel : Nat) :
    ∀ env : Env, (∀ e ∈ env, ValInRegion P e.2) →
      readEnv hB fuel env = readEnv hA fuel env := by
  intro env
  induction env with
  | nil => intro _; rfl
  | cons e rest ih =>
    intro hr
    obtain ⟨k, v⟩ := e
    simp only [readEnv]
    rw [readVal_frame hA hB P hcl hag fuel v (hr (k, v) (List.mem_cons_self _ _)),
      ih (fun w hw => hr w (List.mem_cons_of_mem _ hw))]

end EnvHeap

namespace EnvHeap

theorem newCellsClosed_self (h : Heap) : NewCellsClosed h h.size := by
  intro a ha cell hcell
  rw [getCell_none_of_ge h a ha] at hcell
  exact Option.noConfusion hcell

mutual

theorem allocP_spec (n : Nat) (h : Heap) (p : PVal)
    (hn : n ≤ h.size) (hcl : NewCellsClosed h n) :
    HExtends h (allocP h p).1 ∧ NewCellsClosed (allocP h p).1 n ∧
      ValInRegion (fun b => n ≤ b ∧ b < (allocP h p).1.size) (allocP h p).2 := by
  cases p with
  | str s =>
    exact ⟨hExtends_refl h, hcl, trivial⟩
  | list vs =>
    obtain ⟨hx1, hcl1, hv1⟩ := allocPs_spec n h vs hn hcl
    have hun : allocP h (.list vs)
        = (((allocPs h vs).1.alloc (allocPs h vs).2).1,
           HVal.ref ((allocPs h vs).1.alloc (allocPs h vs).2).2) := rfl
    rw [hun]
    have hx2 : HExtends (allocPs h vs).1 ((allocPs h vs).1.alloc (allocPs h vs).2).1 :=
      alloc_extends _ _
    have hsz : ((allocPs h vs).1.alloc (allocPs h vs).2).1.size
        = (allocPs h vs).1.size + 1 := by
      simp [Heap.alloc, Heap.size]
    refine ⟨hExtends_trans hx1 hx2, ?_, ?_⟩
    · intro a ha cell hcell w hw
      rcases Nat.lt_trichotomy a (allocPs h vs).1.size with hlt | heq | hgt
      · rw [hExtends_getCell hx2 a hlt] at hcell
        exact valInRegion_mono
          (fun b hb => ⟨hb.1, lt_of_lt_of_le hb.2 (hExtends_size_le hx2)⟩)
          w (hcl1 a ha cell hcell w hw)
      · have hcc : ((allocPs h vs).1.alloc (allocPs h vs).2).1.getCell a
            = some (allocPs h vs).2 := by
          rw [heq]
          exact getCell_alloc_self (allocPs h vs).1 (allocPs h vs).2
        rw [hcc] at hcell
        injection hcell with hce
        subst hce
        exact valInRegion_mono
          (fun b hb => ⟨hb.1, lt_of_lt_of_le hb.2 (hExtends_size_le hx2)⟩)
          w (hv1 w hw)
      · have hnone : ((allocPs h vs).1.alloc (allocPs h vs).2).1.getCell a = none := by
          apply getCell_none_of_ge
          rw [hsz]
          omega
        rw [hnone] at hcell
        exact Option.noConfusion hcell
    · exact ⟨le_trans hn (hExtends_size_le hx1), by rw [hsz]; exact Nat.lt_succ_self _⟩
termination_by sizeOf p

theorem allocPs_spec (n : Nat) (h : Heap) (vs : List PVal)
    (hn : n ≤ h.size) (hcl : NewCellsClosed h n) :
    HExtends h (allocPs h vs).1 ∧ NewCellsClosed (allocPs h vs).1 n ∧
      ∀ w ∈ (allocPs h vs).2,
        ValInRegion (fun b => n ≤ b ∧ b < (allocPs h vs).1.size) w := by
  cases vs with
  | nil =>
    refine ⟨hExtends_refl h, hcl, ?_⟩
    intro w hw
    cases hw
  | cons v rest =>
    obtain ⟨hx1, hcl1, hv1⟩ := allocP_spec n h v hn hcl
    obtain ⟨hx2, hcl2, hv2⟩ := allocPs_spec n (allocP h v).1 rest
      (le_trans hn (hExtends_size_le hx1)) hcl1
    have hun : allocPs h (v :: rest)
        = ((allocPs (allocP h v).1 rest).1,
           (allocP h v).2 :: (allocPs (allocP h v).1 rest).2) := rfl
    rw [hun]
    refine ⟨hExtends_trans hx1 hx2, hcl2, ?_⟩
    intro w hw
    rcases List.mem_cons.mp hw with hw1 | hw2
    · subst hw1
      exact valInRegion_mono
        (fun b hb => ⟨hb.1, lt_of_lt_of_le hb.2 (hExtends_size_le hx2)⟩)
        _ hv1
    · exact hv2 w hw2
termination_by sizeOf vs

end

theorem allocEnv_spec (n : Nat) (ps : List (String × PVal)) :
    ∀ h : Heap, n ≤ h.size → NewCellsClosed h n →
      HExtends h (allocEnv h ps).1 ∧ NewCellsClosed (allocEnv h ps).1 n ∧
      ∀ e ∈ (allocEnv h ps).2,
        ValInRegion (fun b => n ≤ b ∧ b < (allocEnv h ps).1.size) e.2 := by
  induction ps with
  | nil =>
    intro h hn hcl
    refine ⟨hExtends_refl h, hcl, ?_⟩
    intro e he
    cases he
  | cons kp rest ih =>
    intro h hn hcl
    obtain ⟨k, p⟩ := kp
    obtain ⟨hx1, hcl1, hv1⟩ := allocP_spec n h p hn hcl
    obtain ⟨hx2, hcl2, hv2⟩ := ih (allocP h p).1
      (le_trans hn (hExtends_size_le hx1)) hcl1
    have hun : allocEnv h ((k, p) :: rest)
        = ((allocEnv (allocP h p).1 rest).1,
           (k, (allocP h p).2) :: (allocEnv (allocP h p).1 rest).2) := rfl
    rw [hun]
    refine ⟨hExtends_trans hx1 hx2, hcl2, ?_⟩
    intro e he
    rcases List.mem_cons.mp he with he1 | he2
    · subst he1
      exact valInRegion_mono
        (fun b hb => ⟨hb.1, lt_of_lt_of_le hb.2 (hExtends_size_le hx2)⟩)
        _ hv1
    · exact hv2 e he2

theorem hSetKey_refs (env : Env) (k : String) (v : HVal) (P : Addr → Prop)
    (hv : ValInRegion P v) (henv : ∀ e ∈ env, ValInRegion P e.2) :
    ∀ e ∈ hSetKey env k v, ValInRegion P e.2 := by
  intro e he
  unfold hSetKey at he
  split at he
  · obtain ⟨e0, he0, heq⟩ := List.mem_map.mp he
    split at heq
    · subst heq
      exact hv
    · subst heq
      exact henv e0 he0
  · rcases List.mem_append.mp he with h1 | h2
    · exact henv e h1
    · have he2 := List.mem_singleton.mp h2
      subst he2
      exact hv

theorem ovFold_spec (n : Nat) (ov : List (String × PVal)) :
    ∀ acc : Heap × Env, n ≤ acc.1.size → NewCellsClosed acc.1 n →
      (∀ e ∈ acc.2, ValInRegion (fun b => n ≤ b ∧ b < acc.1.size) e.2) →
      HExtends acc.1 (ov.foldl ovStep acc).1 ∧
      NewCellsClosed (ov.foldl ovStep acc).1 n ∧
      ∀ e ∈ (ov.foldl ovStep acc).2,
        ValInRegion (fun b => n ≤ b ∧ b < (ov.foldl ovStep acc).1.size) e.2 := by
  induction ov with
  | nil =>
    intro acc hn hcl hr
    exact ⟨hExtends_refl _, hcl, hr⟩
  | cons p rest ih =>
    intro acc hn hcl hr
    obtain ⟨hx1, hcl1, hv1⟩ := allocP_spec n acc.1 p.2 hn hcl
    have hun : (p :: rest).foldl ovStep acc
        = rest.foldl ovStep
            ((allocP acc.1 p.2).1, hSetKey acc.2 p.1 (allocP acc.1 p.2).2) := rfl
    rw [hun]
    have hr2 : ∀ e ∈ hSetKey acc.2 p.1 (allocP acc.1 p.2).2,
        ValInRegion (fun b => n ≤ b ∧ b < (allocP acc.1 p.2).1.size) e.2 := by
      apply hSetKey_refs _ _ _ _ hv1
      intro e he
      exact valInRegion_mono
        (fun b hb => ⟨hb.1, lt_of_lt_of_le hb.2 (hExtends_size_le hx1)⟩)
        _ (hr e he)
    obtain ⟨hx2, hcl2, hv2⟩ := ih
      ((allocP acc.1 p.2).1, hSetKey acc.2 p.1 (allocP acc.1 p.2).2)
      (le_trans hn (hExtends_size_le hx1)) hcl1 hr2
    exact ⟨hExtends_trans hx1 hx2, hcl2, hv2⟩

theorem cloneEnv_spec (h : Heap) (fuel : Nat) (E : Env) (ov : List (String × PVal))
    (h1 : Heap) (C : Env) (hclone : cloneEnv h fuel E ov = some (h1, C)) :
    HExtends h h1 ∧ NewCellsClosed h1 h.size ∧
      ∀ e ∈ C, ValInRegion (fun b => h.size ≤ b ∧ b < h1.size) e.2 := by
  unfold cloneEnv at hclone
  cases hsnap : readEnv h fuel E with
  | none =>
    rw [hsnap] at hclone
    exact Option.noConfusion hclone
  | some snapshot =>
    rw [hsnap] at hclone
    dsimp only at hclone
    injection hclone with hpair
    have hh1 : (ov.foldl ovStep (allocEnv h snapshot)).1 = h1 := by rw [hpair]
    have hc1 : (ov.foldl ovStep (allocEnv h snapshot)).2 = C := by rw [hpair]
    subst hh1
    subst hc1
    obtain ⟨hx1, hcl1, hv1⟩ := allocEnv_spec h.size snapshot h (le_refl _)
      (newCellsClosed_self h)
    obtain ⟨hx2, hcl2, hv2⟩ := ovFold_spec h.size ov (allocEnv h snapshot)
      (hExtends_size_le hx1) hcl1 hv1
    exact ⟨hExtends_trans hx1 hx2, hcl2, hv2⟩

end EnvHeap

namespace EnvHeap

theorem hLookup_mem (env : Env) (k : String) (v : HVal)
    (hl : hLookup env k = some v) : ∃ kk, (kk, v) ∈ env := by
  unfold hLookup at hl
  obtain ⟨e, hfind, hev⟩ := Option.map_eq_some'.mp hl
  obtain ⟨k0, v0⟩ := e
  have hm := List.mem_of_find?_eq_some hfind
  subst hev
  exact ⟨k0, hm⟩

theorem envHasRef_of_mem (env : Env) (kk : String) (b : Addr)
    (hm : (kk, HVal.ref b) ∈ env) : envHasRef env b = true := by
  unfold envHasRef
  rw [List.any_eq_true]
  exact ⟨(kk, .ref b), hm, by simp⟩

theorem envHasRef_false_ne (env : Env) (a b : Addr)
    (hnr : envHasRef env a = false) (kk : String) (hm : (kk, HVal.ref b) ∈ env) :
    a ≠ b := by
  intro hab
  subst hab
  rw [envHasRef_of_mem env kk a hm] at hnr
  exact Bool.noConfusion hnr

theorem hSetKey_mem (env : Env) (k : String) (v : HVal) :
    ∀ e ∈ hSetKey env k v, e ∈ env ∨ e = (k, v) := by
  intro e he
  unfold hSetKey at he
  split at he
  · obtain ⟨e0, he0, heq⟩ := List.mem_map.mp he
    split at heq
    · right
      exact heq.symm
    · left
      rw [← heq]
      exact he0
  · rcases List.mem_append.mp he with h1 | h2
    · exact Or.inl h1
    · exact Or.inr (List.mem_singleton.mp h2)

theorem envRefsBelow_valInRegion (n : Nat) (env : Env)
    (he : envRefsBelow n env = true) :
    ∀ e ∈ env, ValInRegion (fun a => a < n) e.2 := by
  intro e hm
  unfold envRefsBelow at he
  rw [List.all_eq_true] at he
  have hv := he e hm
  cases hv2 : e.2 with
  | str s => trivial
  | ref a =>
    rw [hv2] at hv
    simpa [valRefsBelow] using hv

theorem regionClosed_lt_of_wf (h h1 : Heap) (hwf : heapWF h = true)
    (hx : HExtends h h1) : RegionClosed h1 (fun a => a < h.size) := by
  intro a ha cell hcell w hw
  rw [hExtends_getCell hx a ha] at hcell
  unfold heapWF at hwf
  rw [List.all_eq_true] at hwf
  have hcm : cell ∈ h.cells := by
    unfold Heap.getCell at hcell
    exact List.getElem?_mem hcell
  have hall := hwf cell hcm
  rw [List.all_eq_true] at hall
  have hwv := hall w hw
  cases hv : w with
  | str s => trivial
  | ref b =>
    rw [hv] at hwv
    simpa [valRefsBelow] using hwv

end EnvHeap

namespace EnvHeap

theorem allocPs_extends (h : Heap) (vs : List PVal) : HExtends h (allocPs h vs).1 :=
  (allocPs_spec h.size h vs (le_refl _) (newCellsClosed_self h)).1

theorem allocP_extends (h : Heap) (p : PVal) : HExtends h (allocP h p).1 :=
  (allocP_spec h.size h p (le_refl _) (newCellsClosed_self h)).1

theorem applyOp_frame (h : Heap) (env : Env) (op : EnvOp) (h2 : Heap) (env2 : Env)
    (happ : applyOp h env op = some (h2, env2)) (a : Addr)
    (ha : a < h.size) (hnr : envHasRef env a = false) :
    h2.getCell a = h.getCell a := by
  cases op with
  | append k v =>
    simp only [applyOp] at happ
    by_cases hk : hHasKey env k = true
    · rw [if_pos hk] at happ
      dsimp only at happ
      cases hlk : hLookup env k with
      | none =>
        rw [hlk] at happ
        exact Option.noConfusion happ
      | some w =>
        rw [hlk] at happ
        cases w with
        | str s => exact Option.noConfusion happ
        | ref b =>
          dsimp only at happ
          cases hgc : h.getCell b with
          | none =>
            rw [hgc] at happ
            exact Option.noConfusion happ
          | some cell =>
            rw [hgc] at happ
            dsimp only at happ
            injection happ with hpr
            simp only [Prod.mk.injEq] at hpr
            obtain ⟨hh2, _⟩ := hpr
            obtain ⟨kk, hkm⟩ := hLookup_mem env k _ hlk
            have hne : a ≠ b := envHasRef_false_ne env a b hnr kk hkm
            rw [← hh2, getCell_set_ne _ _ _ _ hne,
              hExtends_getCell (allocPs_extends h (iterPElems v)) a ha]
    · rw [if_neg hk] at happ
      dsimp only at happ
      cases hlk : hLookup (hSetKey env k (HVal.ref (h.alloc []).2)) k with
      | none =>
        rw [hlk] at happ
        exact Option.noConfusion happ
      | some w =>
        rw [hlk] at happ
        cases w with
        | str s => exact Option.noConfusion happ
        | ref b =>
          dsimp only at happ
          cases hgc : (h.alloc []).1.getCell b with
          | none =>
            rw [hgc] at happ
            exact Option.noConfusion happ
          | some cell =>
            rw [hgc] at happ
            dsimp only at happ
            injection happ with hpr
            simp only [Prod.mk.injEq] at hpr
            obtain ⟨hh2, _⟩ := hpr
            have hne : a ≠ b := by
              obtain ⟨kk, hkm⟩ := hLookup_mem _ k _ hlk
              rcases hSetKey_mem env k _ _ hkm with hin | heq
              · exact envHasRef_false_ne env a b hnr kk hin
              · have hb2 : HVal.ref b = HVal.ref (h.alloc []).2 :=
                  congrArg Prod.snd heq
                have hb : b = (h.alloc []).2 := by
                  injection hb2 with hbe
                have hsz : (h.alloc []).2 = h.size := rfl
                rw [hb, hsz]
                intro hca
                rw [hca] at ha
                exact Nat.lt_irrefl _ ha
            rw [← hh2, getCell_set_ne _ _ _ _ hne,
              hExtends_getCell (allocPs_extends (h.alloc []).1 (iterPElems v)) a
                (lt_of_lt_of_le ha (hExtends_size_le (alloc_extends h []))),
              hExtends_getCell (alloc_extends h []) a ha]
  | prepend k v =>
    simp only [applyOp] at happ
    by_cases hk : hHasKey env k = true
    · rw [if_pos hk] at happ
      dsimp only at happ
      cases hlk : hLookup env k with
      | none =>
        rw [hlk] at happ
        exact Option.noConfusion happ
      | some w =>
        rw [hlk] at happ
        cases w with
        | str s => exact Option.noConfusion happ
        | ref b =>
          dsimp only at happ
          cases hgc : h.getCell b with
          | none =>
            rw [hgc] at happ
            exact Option.noConfusion happ
          | some cell =>
            rw [hgc] at happ
            dsimp only at happ
            injection happ with hpr
            simp only [Prod.mk.injEq] at hpr
            obtain ⟨hh2, _⟩ := hpr
            obtain ⟨kk, hkm⟩ := hLookup_mem env k _ hlk
            have hne : a ≠ b := envHasRef_false_ne env a b hnr kk hkm
            rw [← hh2, getCell_set_ne _ _ _ _ hne,
              hExtends_getCell (allocPs_extends h (iterPElems v)) a ha]
    · rw [if_neg hk] at happ
      dsimp only at happ
      cases hlk : hLookup (hSetKey env k (HVal.ref (h.alloc []).2)) k with
      | none =>
        rw [hlk] at happ
        exact Option.noConfusion happ
      | some w =>
        rw [hlk] at happ
        cases w with
        | str s => exact Option.noConfusion happ
        | ref b =>
          dsimp only at happ
          cases hgc : (h.alloc []).1.getCell b with
          | none =>
            rw [hgc] at happ
            exact Option.noConfusion happ
          | some cell =>
            rw [hgc] at happ
            dsimp only at happ
            injection happ with hpr
            simp only [Prod.mk.injEq] at hpr
            obtain ⟨hh2, _⟩ := hpr
            have hne : a ≠ b := by
              obtain ⟨kk, hkm⟩ := hLookup_mem _ k _ hlk
              rcases hSetKey_mem env k _ _ hkm with hin | heq
              · exact envHasRef_false_ne env a b hnr kk hin
              · have hb2 : HVal.ref b = HVal.ref (h.alloc []).2 :=
                  congrArg Prod.snd heq
                have hb : b = (h.alloc []).2 := by
                  injection hb2 with hbe
                have hsz : (h.alloc []).2 = h.size := rfl
                rw [hb, hsz]
                intro hca
                rw [hca] at ha
                exact Nat.lt_irrefl _ ha
            rw [← hh2, getCell_set_ne _ _ _ _ hne,
              hExtends_getCell (allocPs_extends (h.alloc []).1 (iterPElems v)) a
                (lt_of_lt_of_le ha (hExtends_size_le (alloc_extends h []))),
              hExtends_getCell (alloc_extends h []) a ha]
  | replace k v =>
    simp only [applyOp] at happ
    injection happ with hpr
    simp only [Prod.mk.injEq] at hpr
    obtain ⟨hh2, _⟩ := hpr
    rw [← hh2, hExtends_getCell (allocP_extends h v) a ha]
  | setitem k v =>
    simp only [applyOp] at happ
    injection happ with hpr
    simp only [Prod.mk.injEq] at hpr
    obtain ⟨hh2, _⟩ := hpr
    rw [← hh2, hExtends_getCell (allocP_extends h v) a ha]
  | mutateAppend k v =>
    simp only [applyOp] at happ
    cases hlk : hLookup env k with
    | none =>
      rw [hlk] at happ
      exact Option.noConfusion happ
    | some w =>
      rw [hlk] at happ
      cases w with
      | str s => exact Option.noConfusion happ
      | ref b =>
        dsimp only at happ
        cases hgc : h.getCell b with
        | none =>
          rw [hgc] at happ
          exact Option.noConfusion happ
        | some cell =>
          rw [hgc] at happ
          dsimp only at happ
          injection happ with hpr
          simp only [Prod.mk.injEq] at hpr
          obtain ⟨hh2, _⟩ := hpr
          obtain ⟨kk, hkm⟩ := hLookup_mem env k _ hlk
          have hne : a ≠ b := envHasRef_false_ne env a b hnr kk hkm
          rw [← hh2, getCell_set_ne _ _ _ _ hne,
            hExtends_getCell (allocP_extends h v) a ha]

end EnvHeap

namespace EnvHeap

theorem envHasRef_false_of_region (env : Env) (P : Addr → Prop) (a : Addr)
    (henv : ∀ e ∈ env, ValInRegion P e.2) (hna : ¬ P a) :
    envHasRef env a = false := by
  cases hc : envHasRef env a
  · rfl
  · exfalso
    unfold envHasRef at hc
    rw [List.any_eq_true] at hc
    obtain ⟨e, hm, hpe⟩ := hc
    have he2 : e.2 = HVal.ref a := by simpa using hpe
    have hreg := henv e hm
    rw [he2] at hreg
    exact hna hreg

end EnvHeap

/-- C4: `SConsEnvironment.Clone` builds the clone's settings by deep copy
(`copy.deepcopy` in `__init__`, then the override kwargs), so on a
well-formed heap whose environment references are all allocated, cloning
leaves the parent's settings snapshot unchanged, every subsequent settings
mutation of the clone (Append, Prepend, Replace, item assignment, or
in-place mutation of a list value) leaves the parent's snapshot unchanged,
and every subsequent settings mutation of the parent leaves the clone's
snapshot unchanged. -/
theorem c4_clone_deep_copy
    (h : EnvHeap.Heap) (fuel : Nat) (E : EnvHeap.Env)
    (ov : List (String × EnvHeap.PVal)) (h1 : EnvHeap.Heap) (C : EnvHeap.Env)
    (hwf : EnvHeap.heapWF h = true)
    (hE : EnvHeap.envRefsBelow h.size E = true)
    (hclone : EnvHeap.cloneEnv h fuel E ov = some (h1, C)) :
    EnvHeap.readEnv h1 fuel E = EnvHeap.readEnv h fuel E ∧
    (∀ (op : EnvHeap.EnvOp) (h2 : EnvHeap.Heap) (C2 : EnvHeap.Env),
      EnvHeap.applyOp h1 C op = some (h2, C2) →
      EnvHeap.readEnv h2 fuel E = EnvHeap.readEnv h1 fuel E) ∧
    (∀ (op : EnvHeap.EnvOp) (h2 : EnvHeap.Heap) (E2 : EnvHeap.Env),
      EnvHeap.applyOp h1 E op = some (h2, E2) →
      EnvHeap.readEnv h2 fuel C = EnvHeap.readEnv h1 fuel C) := by
  obtain ⟨hx, hncc, hcreg⟩ := EnvHeap.cloneEnv_spec h fuel E ov h1 C hclone
  have hEreg : ∀ e ∈ E, EnvHeap.ValInRegion (fun a => a < h.size) e.2 :=
    EnvHeap.envRefsBelow_valInRegion h.size E hE
  have hclE : EnvHeap.RegionClosed h (fun a => a < h.size) :=
    EnvHeap.regionClosed_lt_of_wf h h hwf (EnvHeap.hExtends_refl h)
  have hclE1 : EnvHeap.RegionClosed h1 (fun a => a < h.size) :=
    EnvHeap.regionClosed_lt_of_wf h h1 hwf hx
  have hclC1 : EnvHeap.RegionClosed h1 (fun b => h.size ≤ b ∧ b < h1.size) := by
    intro a ha cell hcell
    exact hncc a ha.1 cell hcell
  refine ⟨?_, ?_, ?_⟩
  · apply EnvHeap.readEnv_frame h h1 _ hclE _ fuel E hEreg
    intro a ha
    exact (EnvHeap.hExtends_getCell hx a ha).symm
  · intro op h2 C2 happ
    apply EnvHeap.readEnv_frame h1 h2 _ hclE1 _ fuel E hEreg
    intro a ha
    have hnr : EnvHeap.envHasRef C a = false := by
      apply EnvHeap.envHasRef_false_of_region C _ a hcreg
      intro hq
      exact Nat.lt_irrefl a (lt_of_lt_of_le ha hq.1)
    exact (EnvHeap.applyOp_frame h1 C op h2 C2 happ a
      (lt_of_lt_of_le ha (EnvHeap.hExtends_size_le hx)) hnr).symm
  · intro op h2 E2 happ
    apply EnvHeap.readEnv_frame h1 h2 _ hclC1 _ fuel C hcreg
    intro a ha
    have hnr : EnvHeap.envHasRef E a = false := by
      apply EnvHeap.envHasRef_false_of_region E _ a hEreg
      intro hlt
      exact Nat.lt_irrefl a (lt_of_lt_of_le hlt ha.1)
    exact (EnvHeap.applyOp_frame h1 E op h2 E2 happ a ha.2 hnr).symm

/-- Witness for C4: heap with one list cell, parent binding `LIBS` to it;
the clone gets a fresh cell, in-place mutation of the clone's list leaves
the parent's snapshot unchanged. -/
theorem c4_clone_deep_copy_witness :
    EnvHeap.heapWF ⟨[[EnvHeap.HVal.str "a"]]⟩ = true ∧
    EnvHeap.envRefsBelow (EnvHeap.Heap.size ⟨[[EnvHeap.HVal.str "a"]]⟩)
      [("LIBS", EnvHeap.HVal.ref 0)] = true ∧
    EnvHeap.cloneEnv ⟨[[EnvHeap.HVal.str "a"]]⟩ 2 [("LIBS", EnvHeap.HVal.ref 0)] [] =
      some (⟨[[EnvHeap.HVal.str "a"], [EnvHeap.HVal.str "a"]]⟩,
        [("LIBS", EnvHeap.HVal.ref 1)]) ∧
    EnvHeap.applyOp ⟨[[EnvHeap.HVal.str "a"], [EnvHeap.HVal.str "a"]]⟩
        [("LIBS", EnvHeap.HVal.ref 1)]
        (EnvHeap.EnvOp.mutateAppend "LIBS" (EnvHeap.PVal.str "b")) =
      some (⟨[[EnvHeap.HVal.str "a"], [EnvHeap.HVal.str "a", EnvHeap.HVal.str "b"]]⟩,
        [("LIBS", EnvHeap.HVal.ref 1)]) ∧
    EnvHeap.readEnv
        ⟨[[EnvHeap.HVal.str "a"], [EnvHeap.HVal.str "a", EnvHeap.HVal.str "b"]]⟩
        2 [("LIBS", EnvHeap.HVal.ref 0)] =
      EnvHeap.readEnv ⟨[[EnvHeap.HVal.str "a"], [EnvHeap.HVal.str "a"]]⟩
        2 [("LIBS", EnvHeap.HVal.ref 0)] :=
  ⟨rfl, rfl, rfl, rfl,
    (c4_clone_deep_copy ⟨[[EnvHeap.HVal.str "a"]]⟩ 2 [("LIBS", EnvHeap.HVal.ref 0)] []
        ⟨[[EnvHeap.HVal.str "a"], [EnvHeap.HVal.str "a"]]⟩
        [("LIBS", EnvHeap.HVal.ref 1)] rfl rfl rfl).2.1
      (EnvHeap.EnvOp.mutateAppend "LIBS" (EnvHeap.PVal.str "b"))
      ⟨[[EnvHeap.HVal.str "a"], [EnvHeap.HVal.str "a", EnvHeap.HVal.str "b"]]⟩
      [("LIBS", EnvHeap.HVal.ref 1)] rfl⟩
